import Mathlib

/-!
# Verification of the gonum `graph/coloring` package

A shallow embedding of the vertex-coloring algorithm family of
`gonum.org/v1/gonum/graph/coloring` (Dsatur, DsaturExact, Randomized,
RecursiveLargestFirst, SanSegundo, WelshPowell, the shared partial-coloring
validator `newPartial` and the color-class index `Sets`), together with proofs
of the behavioural properties stated in the package specification.

The implementation file of the package is not part of the provided sources
(only its test file is), so every operation below is modelled from the
specification text, as its doc comment records.  Vertex identifiers are `Int`
(Go `int64`), colors are `Nat` (non-negative integer labels), a coloring is an
association list modelling a Go `map[int64]int`, and the graph is the pair of
the two oracles the spec requires from the graph collaborator: the vertex
enumeration and the edge list (from which neighbor enumeration is derived).
-/

namespace Coloring

/-- An undirected graph as seen by the coloring core: an enumeration of the
vertex identifiers and an enumeration of the (undirected) edges.  An edge
`(u, v)` joins `u` and `v` in both directions. -/
structure UGraph where
  verts : List Int
  edges : List (Int × Int)

/-- A coloring: a finite vertex→color map, modelled as an association list
(the model of a Go `map[int64]int`); `lookup` gives the map semantics. -/
abbrev CMap := List (Int × Nat)

/-- The neighbors of `v`: all vertices joined to `v` by some edge, in either
orientation, without duplicates. -/
def neighbors (g : UGraph) (v : Int) : List Int :=
  (g.edges.filterMap fun e =>
    if e.1 = v then some e.2 else if e.2 = v then some e.1 else none).dedup

/-- Adjacency: `u` is a neighbor of `v`. -/
def Adj (g : UGraph) (u v : Int) : Prop := u ∈ neighbors g v

instance (g : UGraph) (u v : Int) : Decidable (Adj g u v) := by
  unfold Adj; infer_instance

/-- The graph has no self-loops (the graph collaborator, gonum's
`simple.UndirectedGraph`, refuses self-edges). -/
def SelfLoopFree (g : UGraph) : Prop := ∀ e ∈ g.edges, e.1 ≠ e.2

instance (g : UGraph) : Decidable (SelfLoopFree g) := by
  unfold SelfLoopFree; infer_instance

/-- Every edge endpoint is an enumerated vertex (in gonum an edge can only
join nodes of the graph). -/
def EdgesClosed (g : UGraph) : Prop := ∀ e ∈ g.edges, e.1 ∈ g.verts ∧ e.2 ∈ g.verts

instance (g : UGraph) : Decidable (EdgesClosed g) := by
  unfold EdgesClosed; infer_instance

/-- Properness: no edge joins two assigned vertices of equal color. -/
def Proper (g : UGraph) (c : CMap) : Prop :=
  ∀ e ∈ g.edges, (c.lookup e.1).isSome → (c.lookup e.2).isSome →
    c.lookup e.1 ≠ c.lookup e.2

instance (g : UGraph) (c : CMap) : Decidable (Proper g c) := by
  unfold Proper; infer_instance

/-- Totality: every enumerable vertex identifier appears as a key. -/
def Total (g : UGraph) (c : CMap) : Prop :=
  ∀ v ∈ g.verts, (c.lookup v).isSome

instance (g : UGraph) (c : CMap) : Decidable (Total g c) := by
  unfold Total; infer_instance

/-- The number of distinct colors used by a coloring. -/
def kOf (c : CMap) : Nat := (c.map Prod.snd).dedup.length

/-- The vertices of the graph not yet assigned by `c`. -/
def uncolored (g : UGraph) (c : CMap) : List Int :=
  g.verts.filter fun v => (c.lookup v).isNone

/-- The colors currently appearing among the neighbors of `v`. -/
def nbrColors (g : UGraph) (c : CMap) (v : Int) : List Nat :=
  (neighbors g v).filterMap c.lookup

/-- Saturation degree: the number of distinct colors among the already-colored
neighbors of `v`. -/
def satDeg (g : UGraph) (c : CMap) (v : Int) : Nat :=
  (nbrColors g c v).dedup.length

/-- Raw degree of a vertex. -/
def degree (g : UGraph) (v : Int) : Nat := (neighbors g v).length

/-- First-fit: the smallest color not occurring in `used` (some color in
`0..used.length` is always free). -/
def firstFit (used : List Nat) : Nat :=
  ((List.range (used.length + 1)).filter fun k => ¬ used.contains k).headD 0

/-- Assign to the vertex `v` the first-fit color given the current coloring. -/
def assign (g : UGraph) (c : CMap) (v : Int) : CMap :=
  (v, firstFit (nbrColors g c v)) :: c

/-- Generic maximum selection: fold `better` over the list starting from
`v0`, replacing the current best whenever a strictly better element appears.
Each heuristic instantiates `better` with its own priority and tie-break. -/
def pickFold (better : Int → Int → Bool) (l : List Int) (v0 : Int) : Int :=
  l.foldl (fun b u => if better u b then u else b) v0

/-- Modelled from the spec: the Dsatur selection priority of
`graph/coloring`'s saturation-degree heuristics — maximum saturation degree,
ties broken by maximum raw degree, then by smallest vertex identifier. -/
def dsaturBetter (g : UGraph) (c : CMap) (u b : Int) : Bool :=
  if satDeg g c u ≠ satDeg g c b then satDeg g c b < satDeg g c u
  else if degree g u ≠ degree g b then degree g b < degree g u
  else u < b

/-- Modelled from the spec: one round of §4.2's greedy loop per unit of fuel —
select the best uncolored vertex by the saturation-degree priority and give it
the smallest color not present among its colored neighbors.  The saturation
degrees are recomputed from the current coloring, which agrees with the
incremental updates the spec describes. -/
def dsaturLoop (g : UGraph) : Nat → CMap → CMap
  | 0, c => c
  | fuel + 1, c =>
    match uncolored g c with
    | [] => c
    | v0 :: rest => dsaturLoop g fuel (assign g c (pickFold (dsaturBetter g c) rest v0))

/-- Modelled from the spec: the saturation-degree greedy coloring (§4.2) run
from a validated seed coloring until every vertex is colored. -/
def saturationGreedy (g : UGraph) (seed : CMap) : CMap :=
  dsaturLoop g (uncolored g seed).length seed

/-- Modelled from the spec: static-order greedy coloring — walk the given
vertex order and give each not-yet-colored vertex its first-fit color
(§4.6, §4.7 use this with their respective orders). -/
def greedyList (g : UGraph) : List Int → CMap → CMap
  | [], c => c
  | v :: rest, c =>
    if (c.lookup v).isSome then greedyList g rest c
    else greedyList g rest (assign g c v)

/-- Insert `x` into a list, before the first element it is `le`-related to. -/
def insertSorted (le : Int → Int → Bool) (x : Int) : List Int → List Int
  | [] => [x]
  | y :: t => if le x y then x :: y :: t else y :: insertSorted le x t

/-- Insertion sort by the boolean relation `le`. -/
def sortBy (le : Int → Int → Bool) (l : List Int) : List Int :=
  l.foldr (insertSorted le) []

/-- Modelled from the spec: the Welsh–Powell static order — descending raw
degree, ties broken by smallest identifier (§4.6). -/
def wpOrder (g : UGraph) : List Int :=
  sortBy (fun u v =>
    if degree g u ≠ degree g v then degree g v < degree g u else u ≤ v) g.verts

/-- Modelled from the spec: shuffling of the vertex enumeration driven by a
caller-supplied deterministic random source (§4.7).  The source is the
external collaborator's draw stream: `src i` is the `i`-th draw.  Each round
extracts the element at a source-chosen index (Fisher–Yates). -/
def shuffleGo (src : Nat → Nat) : Nat → Nat → List Int → List Int
  | _, _, [] => []
  | _, 0, l => l
  | i, fuel + 1, l =>
    let x := l.getD (src i % l.length) 0
    x :: shuffleGo src (i + 1) fuel (l.erase x)

/-- Shuffle a list using the random source `src`. -/
def shuffle (src : Nat → Nat) (l : List Int) : List Int :=
  shuffleGo src 0 l.length l

/-- The Go error value returned for an improper caller-supplied partial
coloring. -/
def ErrInvalidPartialColoring : String := "coloring: invalid partial coloring"

/-- The partial-coloring validation rule: for every edge whose two endpoints
are both assigned, the assigned colors differ. -/
def isValidPartial (g : UGraph) (p : CMap) : Bool :=
  g.edges.all fun e =>
    match p.lookup e.1, p.lookup e.2 with
    | some a, some b => a ≠ b
    | _, _ => true

/-- Modelled from the spec: the shared partial-coloring validator (§4.1).
Given the caller's optional partial coloring it returns a private
algorithm-owned copy and a success flag; an empty or absent partial coloring
is always valid, and on failure no copy of the input is handed out (the Go
code returns a `nil` map, modelled by the empty map). -/
def newPartial (part : Option CMap) (g : UGraph) : CMap × Bool :=
  match part with
  | none => ([], true)
  | some p => if isValidPartial g p then (p, true) else ([], false)

/-- Modelled from the spec: `Dsatur` (§4.2) — validate the partial coloring,
then run the saturation-degree greedy coloring from it; returns the number of
distinct colors used and the coloring, or the invalid-partial error. -/
def Dsatur (g : UGraph) (part : Option CMap) : Except String (Nat × CMap) :=
  match newPartial part g with
  | (_, false) => .error ErrInvalidPartialColoring
  | (p, true) =>
    let c := saturationGreedy g p
    .ok (kOf c, c)

/-- Modelled from the spec: `SanSegundo` (§4.5) — the same seeding, selection
priority, tie-break and first-fit policy as `Dsatur`; the spec's candidate-
color-domain bookkeeping is an internal optimization with no observable
effect, so the observable behaviour coincides with the saturation-degree
greedy coloring. -/
def SanSegundo (g : UGraph) (part : Option CMap) : Except String (Nat × CMap) :=
  match newPartial part g with
  | (_, false) => .error ErrInvalidPartialColoring
  | (p, true) =>
    let c := saturationGreedy g p
    .ok (kOf c, c)

/-- Modelled from the spec: `WelshPowell` (§4.6) — validate the partial
coloring, then first-fit greedily color along the static
descending-degree/smallest-id order. -/
def WelshPowell (g : UGraph) (part : Option CMap) : Except String (Nat × CMap) :=
  match newPartial part g with
  | (_, false) => .error ErrInvalidPartialColoring
  | (p, true) =>
    let c := greedyList g (wpOrder g) p
    .ok (kOf c, c)

/-- Modelled from the spec: `Randomized` (§4.7) — validate the partial
coloring, then first-fit greedily color along the order produced by shuffling
the vertex enumeration with the caller-supplied random source. -/
def Randomized (g : UGraph) (part : Option CMap) (src : Nat → Nat) :
    Except String (Nat × CMap) :=
  match newPartial part g with
  | (_, false) => .error ErrInvalidPartialColoring
  | (p, true) =>
    let c := greedyList g (shuffle src g.verts) p
    .ok (kOf c, c)

/-- Append `v` to the color class of `k`, or open a new class for `k`. -/
def addToClass : List (Nat × List Int) → Int → Nat → List (Nat × List Int)
  | [], v, k => [(k, [v])]
  | (k', vs) :: rest, v, k =>
    if k' = k then (k', vs ++ [v]) :: rest else (k', vs) :: addToClass rest v k

/-- Modelled from the spec: the color-class index `Sets` (§4.8) — group a
coloring by color value, mapping each color actually used to the vertices
holding it. -/
def Sets (c : CMap) : List (Nat × List Int) :=
  c.foldl (fun acc p => addToClass acc p.1 p.2) []

/-- Modelled from the spec: a `Terminator` — an opaque cancellation handle
with a signal that becomes observable once the deadline fires and a reason
retrievable after it fires.  Wall-clock time is outside the model; the
deadline is abstracted as the number of cooperative polls that will be
answered before the signal fires (`budget = some 0` is an already-expired
handle, `budget = none` one that never fires). -/
structure Terminator where
  budget : Option Nat
  reason : String

/-- One cooperative poll of the cancellation signal: returns the remaining
budget and whether the signal has fired. -/
def pollFire : Option Nat → Option Nat × Bool
  | none => (none, false)
  | some 0 => (some 0, true)
  | some (b + 1) => (some b, false)

/-- The running state of the exact solver: remaining poll budget, whether
cancellation has been observed, and the best (complete, valid) coloring known
so far together with its color count. -/
structure BBState where
  tb : Option Nat
  cancelled : Bool
  bestK : Nat
  best : CMap

/-- Color `q` is feasible for `v`: no neighbor of `v` is assigned `q`. -/
def feasible (g : UGraph) (c : CMap) (v : Int) (q : Nat) : Bool :=
  (neighbors g v).all fun u => c.lookup u ≠ some q

/-- Modelled from the spec: the depth-first branch-and-bound of `DsaturExact`
(§4.3).  `c` is the current partial assignment and `used` the number of colors
committed in it (colors are introduced contiguously from `0`, a fresh color
always being the next unused integer).  At every branch point the terminator
is polled; a branch is pruned the instant `used` reaches or exceeds the best
known count; the next vertex is chosen by the same saturation-degree priority
as Dsatur, and the branches are the feasible already-used colors in increasing
order plus exactly one fresh color.  One unit of fuel is spent per tree
level. -/
def branchBB (g : UGraph) : Nat → CMap → Nat → BBState → BBState
  | 0, _, _, st => st
  | fuel + 1, c, used, st =>
    if st.cancelled then st else
    if (pollFire st.tb).2 then { st with tb := (pollFire st.tb).1, cancelled := true } else
    if st.bestK ≤ used then { st with tb := (pollFire st.tb).1 } else
    match uncolored g c with
    | [] => { st with tb := (pollFire st.tb).1, bestK := used, best := c }
    | v0 :: rest =>
      ((List.range used).filter (fun q =>
          feasible g c (pickFold (dsaturBetter g c) rest v0) q) ++ [used]).foldl
        (fun s q =>
          branchBB g fuel ((pickFold (dsaturBetter g c) rest v0, q) :: c)
            (if q = used then used + 1 else used) s)
        { st with tb := (pollFire st.tb).1 }

/-- The poll budget carried into the search for an optional terminator. -/
def termBudget : Option Terminator → Option Nat
  | none => none
  | some t => t.budget

/-- The cancellation reason reported on cancellation. -/
def termReason : Option Terminator → String
  | none => ""
  | some t => t.reason

/-- The initial search state: the saturation-degree heuristic's complete
coloring seeds the best-known solution. -/
def bbInit (term : Option Terminator) (g : UGraph) : BBState :=
  { tb := termBudget term
    cancelled := false
    bestK := kOf (saturationGreedy g [])
    best := saturationGreedy g [] }

/-- The search state after the full branch-and-bound run (tree depth is
bounded by the number of vertices, so `|verts| + 1` levels of fuel always
suffice). -/
def bbFinal (term : Option Terminator) (g : UGraph) : BBState :=
  branchBB g (g.verts.length + 1) [] 0 (bbInit term g)

/-- Modelled from the spec: `DsaturExact` (§4.3) — run the saturation-degree
heuristic to seed the best-known solution, then branch-and-bound with
cooperative cancellation.  Returns the best color count, the best (complete,
valid) coloring, and on cancellation an error carrying the terminator's
reason. -/
def DsaturExact (term : Option Terminator) (g : UGraph) :
    Nat × CMap × Option String :=
  ((bbFinal term g).bestK, (bbFinal term g).best,
    if (bbFinal term g).cancelled then some (termReason term) else none)

/-- The number of neighbors of `v` lying in the list `l`. -/
def degIn (g : UGraph) (l : List Int) (v : Int) : Nat :=
  ((neighbors g v).filter fun u => u ∈ l).length

/-- Modelled from the spec: growth of one Recursive-Largest-First color class
(§4.4).  `acc` is the class built so far, `cands` the uncolored vertices not
adjacent to any class member, `excl` the uncolored vertices adjacent to some
class member.  Each round adds the candidate with the most neighbors among
the excluded set (ties broken by smallest identifier) and moves its neighbors
from the candidates to the excluded set. -/
def rlfGrow (g : UGraph) : Nat → List Int → List Int → List Int → List Int
  | 0, acc, _, _ => acc
  | fuel + 1, acc, cands, excl =>
    match cands with
    | [] => acc
    | c0 :: rest =>
      let better : Int → Int → Bool := fun u b =>
        if degIn g excl u ≠ degIn g excl b then degIn g excl b < degIn g excl u
        else u < b
      let v := pickFold better rest c0
      rlfGrow g fuel (v :: acc)
        (((c0 :: rest).erase v).filter fun u => ¬ Adj g u v)
        (excl ++ ((c0 :: rest).erase v).filter fun u => decide (Adj g u v))

/-- Give every vertex of the class `cls` the color `k`. -/
def classAssign (c : CMap) (k : Nat) (cls : List Int) : CMap :=
  cls.map (fun v => (v, k)) ++ c

/-- The RLF selection priority: more neighbors within `l`, ties broken by
smallest identifier. -/
def rlfBetter (g : UGraph) (l : List Int) (u b : Int) : Bool :=
  if degIn g l u ≠ degIn g l b then degIn g l b < degIn g l u else u < b

/-- The seed of a new RLF color class: among the uncolored vertices
`v0 :: rest`, the one of maximum degree restricted to the uncolored-induced
subgraph, ties broken by smallest identifier. -/
def rlfSeed (g : UGraph) (v0 : Int) (rest : List Int) : Int :=
  pickFold (rlfBetter g (v0 :: rest)) rest v0

/-- One full RLF color class grown from the seed: the candidates are the
other uncolored vertices not adjacent to the seed, the excluded set those
adjacent to it. -/
def rlfClass (g : UGraph) (v0 : Int) (rest : List Int) : List Int :=
  rlfGrow g (v0 :: rest).length [rlfSeed g v0 rest]
    (((v0 :: rest).erase (rlfSeed g v0 rest)).filter
      fun u => ¬ Adj g u (rlfSeed g v0 rest))
    (((v0 :: rest).erase (rlfSeed g v0 rest)).filter
      fun u => decide (Adj g u (rlfSeed g v0 rest)))

/-- Modelled from the spec: the outer Recursive-Largest-First loop (§4.4).
While uncolored vertices remain, seed a new class with the uncolored vertex
of maximum degree restricted to the uncolored-induced subgraph (ties broken
by smallest identifier), grow the class, color it with the next color and
repeat. -/
def rlfLoop (g : UGraph) : Nat → Nat → CMap → CMap
  | 0, _, c => c
  | fuel + 1, k, c =>
    match uncolored g c with
    | [] => c
    | v0 :: rest => rlfLoop g fuel (k + 1) (classAssign c k (rlfClass g v0 rest))

/-- Modelled from the spec: `RecursiveLargestFirst` (§4.4) — build the
coloring one color class at a time (no partial coloring, no error path) and
return it with the number of distinct colors used. -/
def RecursiveLargestFirst (g : UGraph) : Nat × CMap :=
  let c := rlfLoop g g.verts.length 0 []
  (kOf c, c)

/-- The spec's invalidity condition: some edge of the graph joins two
vertices that are both assigned by `p` and carry equal colors. -/
def BadPartial (g : UGraph) (p : CMap) : Prop :=
  ∃ e ∈ g.edges, (p.lookup e.1).isSome ∧ p.lookup e.1 = p.lookup e.2

instance (g : UGraph) (p : CMap) : Decidable (BadPartial g p) := by
  unfold BadPartial; infer_instance

/-- Colors assigned by the RLF loop below `k` stay below any later bound. -/
def ColorsBelow (c : CMap) (k : Nat) : Prop :=
  ∀ v a, c.lookup v = some a → a < k

/-- The invariant of a search node: the partial assignment is proper and its
colors are exactly the contiguous committed block `0 .. used-1`. -/
def SearchInv (g : UGraph) (c : CMap) (used : Nat) : Prop :=
  Proper g c ∧ (∀ p ∈ c, p.2 < used) ∧ (∀ q, q < used → ∃ v, c.lookup v = some q)

/-- The invariant of the best-known solution: a proper, complete coloring
whose distinct-color count is the recorded bound. -/
def BestInv (g : UGraph) (st : BBState) : Prop :=
  Proper g st.best ∧ Total g st.best ∧ kOf st.best = st.bestK

/-- Compatibility of a search node with a target coloring `φ`: the partial
assignment is the `σ`-rename of `φ` on its domain, `σ` is an injective map of
`φ`-colors onto the committed block `0 .. used-1`. -/
def Compat (φ : CMap) (σ : Nat → Option Nat) (c : CMap) (used : Nat) : Prop :=
  (∀ u a, c.lookup u = some a → ∃ q, φ.lookup u = some q ∧ σ q = some a) ∧
  (∀ q1 q2 a, σ q1 = some a → σ q2 = some a → q1 = q2) ∧
  (∀ q a, σ q = some a → a < used) ∧
  (∀ a, a < used → ∃ q u, σ q = some a ∧ φ.lookup u = some q)

/-- Extension of the color rename by the next fresh color. -/
def extendRen (σ : Nat → Option Nat) (qv used : Nat) : Nat → Option Nat :=
  fun q => if q = qv then some used else σ q

/-- Bipartiteness: some two-sided split separates every edge. -/
def Bipartite (g : UGraph) : Prop :=
  ∃ side : Int → Bool, ∀ e ∈ g.edges, side e.1 ≠ side e.2

/-- Graph reachability: the reflexive-transitive closure of adjacency. -/
def Reach (g : UGraph) : Int → Int → Prop :=
  Relation.ReflTransGen fun a b => Adj g a b

/-- The orientation of a colored vertex against a bipartition side. -/
def bipFlag (a : Nat) (s : Bool) : Bool := (a == 1) != s

/-- The invariant of the Dsatur greedy loop on a bipartite graph: only the
colors 0 and 1 occur, and all colored vertices of one connected component are
aligned with a single orientation of the bipartition. -/
def BipInv (g : UGraph) (side : Int → Bool) (c : CMap) : Prop :=
  (∀ p ∈ c, p.2 < 2) ∧
  (∀ u w au aw, c.lookup u = some au → c.lookup w = some aw → Reach g u w →
    bipFlag au (side u) = bipFlag aw (side w))

/-- A triangle: three mutually adjacent vertices (witness graph). -/
def triangle : UGraph := ⟨[0, 1, 2], [(0, 1), (0, 2), (1, 2)]⟩

/-- A 4-cycle (witness graph). -/
def squareG : UGraph := ⟨[0, 1, 2, 3], [(0, 1), (1, 2), (2, 3), (3, 0)]⟩

/-- The 6-vertex crown graph (complete bipartite minus a perfect matching,
sides the even and the odd identifiers): bipartite, every degree 2. -/
def crown6 : UGraph :=
  ⟨[0, 1, 2, 3, 4, 5], [(0, 3), (0, 5), (2, 1), (2, 5), (4, 1), (4, 3)]⟩

/-- A concrete deterministic random source (witness input). -/
def identSrc : Nat → Nat := fun i => i

/-! ## Association-list (map) lemmas -/

theorem lookup_cons_self (c : CMap) (v : Int) (k : Nat) :
    ((v, k) :: c).lookup v = some k := by
  simp [List.lookup]

theorem lookup_cons_ne (c : CMap) (u v : Int) (k : Nat) (h : u ≠ v) :
    ((v, k) :: c).lookup u = c.lookup u := by
  simp [List.lookup, beq_false_of_ne h]

theorem lookup_mem {c : CMap} {v : Int} {k : Nat} (h : c.lookup v = some k) :
    (v, k) ∈ c := by
  induction c with
  | nil => simp [List.lookup] at h
  | cons p t ih =>
    rw [List.lookup] at h
    by_cases hv : v = p.1
    · subst hv
      simp at h
      rw [← h]
      exact List.mem_cons_self _ _
    · rw [beq_false_of_ne hv] at h
      exact List.mem_cons_of_mem _ (ih h)

/-! ## Neighbor and adjacency lemmas -/

theorem mem_neighbors {g : UGraph} {u v : Int} :
    u ∈ neighbors g v ↔ ∃ e ∈ g.edges, e = (v, u) ∨ e = (u, v) := by
  unfold neighbors
  rw [List.mem_dedup, List.mem_filterMap]
  constructor
  · rintro ⟨e, he, hcond⟩
    refine ⟨e, he, ?_⟩
    by_cases h1 : e.1 = v
    · simp [h1] at hcond
      left
      rw [Prod.ext_iff]
      exact ⟨h1, hcond⟩
    · by_cases h2 : e.2 = v
      · simp [h1, h2] at hcond
        right
        rw [Prod.ext_iff]
        exact ⟨hcond, h2⟩
      · simp [h1, h2] at hcond
  · rintro ⟨e, he, hor | hor⟩
    · exact ⟨e, he, by simp [hor]⟩
    · refine ⟨e, he, ?_⟩
      by_cases h1 : u = v
      · simp [hor, h1]
      · simp [hor, h1]

theorem not_adj_self {g : UGraph} (hsl : SelfLoopFree g) (v : Int) :
    ¬ Adj g v v := by
  intro h
  unfold Adj at h
  rw [mem_neighbors] at h
  obtain ⟨e, he, hor | hor⟩ := h
  · exact hsl e he (by rw [hor])
  · exact hsl e he (by rw [hor])

theorem adj_symm {g : UGraph} {u v : Int} (h : Adj g u v) : Adj g v u := by
  unfold Adj at *
  rw [mem_neighbors] at *
  obtain ⟨e, he, hor | hor⟩ := h
  · exact ⟨e, he, Or.inr hor⟩
  · exact ⟨e, he, Or.inl hor⟩

/-- Properness, transported from the edge list to the adjacency relation. -/
theorem proper_adj {g : UGraph} {c : CMap} (hp : Proper g c) {u v : Int}
    (hadj : Adj g u v) {a b : Nat}
    (hu : c.lookup u = some a) (hv : c.lookup v = some b) : a ≠ b := by
  unfold Adj at hadj
  rw [mem_neighbors] at hadj
  obtain ⟨e, he, hor | hor⟩ := hadj
  · have := hp e he (by rw [hor]; simp [hv]) (by rw [hor]; simp [hu])
    rw [hor] at this
    simp only [hu, hv] at this
    intro hab
    exact this (by rw [hab])
  · have := hp e he (by rw [hor]; simp [hu]) (by rw [hor]; simp [hv])
    rw [hor] at this
    simp only [hu, hv] at this
    intro hab
    exact this (by rw [hab])

/-! ## First-fit lemmas -/

theorem firstFit_filter_ne_nil (used : List Nat) :
    (List.range (used.length + 1)).filter (fun k => ¬ used.contains k) ≠ [] := by
  intro hnil
  have hall : ∀ k ∈ List.range (used.length + 1), k ∈ used := by
    intro k hk
    have := List.filter_eq_nil.mp hnil k hk
    simpa using this
  have hsub : List.range (used.length + 1) ⊆ used := fun k hk => hall k hk
  have := (List.nodup_range (used.length + 1)).subperm hsub
  have hlen := this.length_le
  simp at hlen

theorem firstFit_not_mem (used : List Nat) : firstFit used ∉ used := by
  unfold firstFit
  rcases hl : (List.range (used.length + 1)).filter (fun k => ¬ used.contains k) with
    _ | ⟨k, t⟩
  · exact absurd hl (firstFit_filter_ne_nil used)
  · have hk : k ∈ (List.range (used.length + 1)).filter (fun k => ¬ used.contains k) := by
      rw [hl]; exact List.mem_cons_self _ _
    have := List.of_mem_filter hk
    simpa using this

theorem firstFit_min {used : List Nat} {j : Nat} (hj : j < firstFit used) :
    j ∈ used := by
  by_contra hjm
  rcases hl : (List.range (used.length + 1)).filter (fun k => ¬ used.contains k) with
    _ | ⟨k, t⟩
  · exact absurd hl (firstFit_filter_ne_nil used)
  · have hff : firstFit used = k := by unfold firstFit; rw [hl]; rfl
    have hkmem : k ∈ List.range (used.length + 1) :=
      List.mem_of_mem_filter (by rw [hl]; exact List.mem_cons_self _ _)
    have hkb : k < used.length + 1 := List.mem_range.mp hkmem
    have hjr : j ∈ List.range (used.length + 1) :=
      List.mem_range.mpr (lt_trans (hff ▸ hj) hkb)
    have hjf : j ∈ (List.range (used.length + 1)).filter (fun k => ¬ used.contains k) := by
      refine List.mem_filter.mpr ⟨hjr, by simpa using hjm⟩
    rw [hl] at hjf
    rw [hff] at hj
    rcases List.mem_cons.mp hjf with hjk | hjt
    · omega
    · have hsorted : ((List.range (used.length + 1)).filter
          (fun k => ¬ used.contains k)).Sorted (· < ·) :=
        (List.sorted_lt_range (used.length + 1)).filter _
      rw [hl] at hsorted
      have := (List.sorted_cons.mp hsorted).1 j hjt
      omega

/-! ## Selection lemmas -/

theorem pickFold_mem (better : Int → Int → Bool) (l : List Int) (v0 : Int) :
    pickFold better l v0 ∈ v0 :: l := by
  induction l generalizing v0 with
  | nil => simp [pickFold]
  | cons u t ih =>
    unfold pickFold at *
    simp only [List.foldl_cons]
    by_cases hb : better u v0
    · rw [if_pos hb]
      rcases List.mem_cons.mp (ih u) with h | h
      · rw [h]
        simp
      · simp [h]
    · rw [if_neg hb]
      rcases List.mem_cons.mp (ih v0) with h | h
      · rw [h]
        simp
      · simp [h]

theorem dsaturBetter_step (g : UGraph) (c : CMap) (w v0 : Int) :
    satDeg g c v0 ≤ satDeg g c (if dsaturBetter g c w v0 then w else v0) ∧
    satDeg g c w ≤ satDeg g c (if dsaturBetter g c w v0 then w else v0) := by
  by_cases hb : dsaturBetter g c w v0
  · rw [if_pos hb]
    unfold dsaturBetter at hb
    by_cases hs : satDeg g c w ≠ satDeg g c v0
    · rw [if_pos hs] at hb
      simp at hb
      omega
    · push_neg at hs
      omega
  · rw [if_neg hb]
    unfold dsaturBetter at hb
    by_cases hs : satDeg g c w ≠ satDeg g c v0
    · rw [if_pos hs] at hb
      simp at hb
      omega
    · push_neg at hs
      omega

theorem pickFold_satDeg_le (g : UGraph) (c : CMap) (l : List Int) (v0 : Int) :
    ∀ u ∈ v0 :: l, satDeg g c u ≤ satDeg g c (pickFold (dsaturBetter g c) l v0) := by
  induction l generalizing v0 with
  | nil => simp [pickFold]
  | cons w t ih =>
    intro u hu
    unfold pickFold at *
    simp only [List.foldl_cons]
    have hstep := dsaturBetter_step g c w v0
    rcases List.mem_cons.mp hu with h | h
    · subst h
      exact le_trans hstep.1 (ih _ _ (List.mem_cons_self _ _))
    · rcases List.mem_cons.mp h with h' | h'
      · subst h'
        exact le_trans hstep.2 (ih _ _ (List.mem_cons_self _ _))
      · exact ih _ _ (List.mem_cons_of_mem _ h')

/-! ## Filter-length helpers -/

theorem filter_length_le_of_imp {α : Type} {p q : α → Bool} (l : List α)
    (himp : ∀ x ∈ l, q x = true → p x = true) :
    (l.filter q).length ≤ (l.filter p).length := by
  induction l with
  | nil => simp
  | cons y t ih =>
    have ht : ∀ x ∈ t, q x = true → p x = true :=
      fun x hx => himp x (List.mem_cons_of_mem _ hx)
    by_cases hq : q y = true
    · have hp : p y = true := himp y (List.mem_cons_self _ _) hq
      simp only [List.filter_cons, if_pos hq, if_pos hp, List.length_cons]
      exact Nat.succ_le_succ (ih ht)
    · by_cases hp : p y = true
      · simp only [List.filter_cons, if_neg hq, if_pos hp, List.length_cons]
        exact le_trans (ih ht) (Nat.le_succ _)
      · simp only [List.filter_cons, if_neg hq, if_neg hp]
        exact ih ht

theorem filter_length_lt_of_witness {α : Type} {p q : α → Bool} (x : α) (l : List α)
    (himp : ∀ x ∈ l, q x = true → p x = true)
    (hx : x ∈ l) (hpx : p x = true) (hqx : q x = false) :
    (l.filter q).length < (l.filter p).length := by
  induction l with
  | nil => simp at hx
  | cons y t ih =>
    have ht : ∀ z ∈ t, q z = true → p z = true :=
      fun z hz => himp z (List.mem_cons_of_mem _ hz)
    rcases List.mem_cons.mp hx with hxy | hxt
    · subst hxy
      have hqx' : ¬ q x = true := by simp [hqx]
      simp only [List.filter_cons, if_pos hpx, if_neg hqx', List.length_cons]
      exact Nat.lt_succ_of_le (filter_length_le_of_imp t ht)
    · by_cases hq : q y = true
      · have hp : p y = true := himp y (List.mem_cons_self _ _) hq
        simp only [List.filter_cons, if_pos hq, if_pos hp, List.length_cons]
        exact Nat.succ_lt_succ (ih ht hxt)
      · by_cases hp : p y = true
        · simp only [List.filter_cons, if_neg hq, if_pos hp, List.length_cons]
          exact Nat.lt_succ_of_le (Nat.le_of_lt (ih ht hxt))
        · simp only [List.filter_cons, if_neg hq, if_neg hp]
          exact ih ht hxt

/-! ## Assignment lemmas -/

theorem assign_lookup_self (g : UGraph) (c : CMap) (v : Int) :
    (assign g c v).lookup v = some (firstFit (nbrColors g c v)) :=
  lookup_cons_self _ _ _

theorem assign_lookup_ne (g : UGraph) (c : CMap) {u v : Int} (h : u ≠ v) :
    (assign g c v).lookup u = c.lookup u :=
  lookup_cons_ne _ _ _ _ h

theorem assign_extends {g : UGraph} {c : CMap} {v : Int}
    (hv : (c.lookup v).isNone) {u : Int} {a : Nat} (hu : c.lookup u = some a) :
    (assign g c v).lookup u = some a := by
  have huv : u ≠ v := by
    intro h
    subst h
    rw [hu] at hv
    simp at hv
  rw [assign_lookup_ne g c huv]
  exact hu

theorem assign_isSome {g : UGraph} {c : CMap} {v u : Int}
    (hv : (c.lookup v).isNone) (hu : (c.lookup u).isSome) :
    ((assign g c v).lookup u).isSome := by
  rcases Option.isSome_iff_exists.mp hu with ⟨a, ha⟩
  rw [assign_extends hv ha]
  rfl

/-- Assigning a first-fit color to an uncolored vertex preserves properness. -/
theorem assign_proper {g : UGraph} (hsl : SelfLoopFree g) {c : CMap}
    (hp : Proper g c) {v : Int} (hv : (c.lookup v).isNone) :
    Proper g (assign g c v) := by
  intro e he h1 h2
  have hkey : ∀ u b, Adj g u v → c.lookup u = some b →
      b ≠ firstFit (nbrColors g c v) := by
    intro u b hadj hub hbk
    have hmem : b ∈ nbrColors g c v := by
      unfold nbrColors
      exact List.mem_filterMap.mpr ⟨u, hadj, hub⟩
    rw [hbk] at hmem
    exact firstFit_not_mem (nbrColors g c v) hmem
  by_cases h1v : e.1 = v
  · by_cases h2v : e.2 = v
    · exfalso
      apply not_adj_self hsl v
      unfold Adj
      rw [mem_neighbors]
      exact ⟨e, he, Or.inl (Prod.ext_iff.mpr ⟨h1v, h2v⟩)⟩
    · have hl1 : (assign g c v).lookup e.1 = some (firstFit (nbrColors g c v)) := by
        rw [h1v]
        exact assign_lookup_self g c v
      rcases Option.isSome_iff_exists.mp h2 with ⟨b, hb⟩
      have hb' : c.lookup e.2 = some b := by
        rw [← assign_lookup_ne g c h2v]
        exact hb
      have hadj : Adj g e.2 v := by
        unfold Adj
        rw [mem_neighbors]
        exact ⟨e, he, Or.inl (Prod.ext_iff.mpr ⟨h1v, rfl⟩)⟩
      have hne := hkey e.2 b hadj hb'
      rw [hl1, hb]
      intro hcontra
      injection hcontra with hcontra
      exact hne hcontra.symm
  · by_cases h2v : e.2 = v
    · have hl2 : (assign g c v).lookup e.2 = some (firstFit (nbrColors g c v)) := by
        rw [h2v]
        exact assign_lookup_self g c v
      rcases Option.isSome_iff_exists.mp h1 with ⟨b, hb⟩
      have hb' : c.lookup e.1 = some b := by
        rw [← assign_lookup_ne g c h1v]
        exact hb
      have hadj : Adj g e.1 v := by
        unfold Adj
        rw [mem_neighbors]
        exact ⟨e, he, Or.inr (Prod.ext_iff.mpr ⟨rfl, h2v⟩)⟩
      have hne := hkey e.1 b hadj hb'
      rw [hl2, hb]
      intro hcontra
      injection hcontra with hcontra
      exact hne hcontra
    · rw [assign_lookup_ne g c h1v] at h1 ⊢
      rw [assign_lookup_ne g c h2v] at h2 ⊢
      exact hp e he h1 h2

/-! ## Uncolored-list lemmas -/

theorem uncolored_eq_nil_iff (g : UGraph) (c : CMap) :
    uncolored g c = [] ↔ Total g c := by
  unfold uncolored Total
  rw [List.filter_eq_nil_iff]
  constructor
  · intro h v hv
    rw [Option.isSome_iff_ne_none]
    intro hnone
    exact h v hv (by rw [hnone]; rfl)
  · intro h v hv
    have := h v hv
    rw [Option.isSome_iff_ne_none] at this
    intro hisNone
    exact this (Option.isNone_iff_eq_none.mp hisNone)

theorem mem_uncolored {g : UGraph} {c : CMap} {v : Int} :
    v ∈ uncolored g c ↔ v ∈ g.verts ∧ (c.lookup v).isNone := by
  unfold uncolored
  rw [List.mem_filter]

theorem uncolored_assign_lt {g : UGraph} {c : CMap} {v : Int}
    (hv : v ∈ uncolored g c) :
    (uncolored g (assign g c v)).length < (uncolored g c).length := by
  rcases mem_uncolored.mp hv with ⟨hvv, hvn⟩
  unfold uncolored
  apply filter_length_lt_of_witness v g.verts
  · intro x hx hq
    simp only [decide_eq_true_eq] at *
    by_cases hxv : x = v
    · subst hxv
      simpa using hvn
    · rw [assign_lookup_ne g c hxv] at hq
      exact hq
  · exact hvv
  · simpa using hvn
  · simp [assign_lookup_self]

/-! ## Dsatur greedy-loop invariants -/

theorem dsaturLoop_proper {g : UGraph} (hsl : SelfLoopFree g) :
    ∀ fuel (c : CMap), Proper g c → Proper g (dsaturLoop g fuel c) := by
  intro fuel
  induction fuel with
  | zero => intro c hp; exact hp
  | succ n ih =>
    intro c hp
    unfold dsaturLoop
    rcases hu : uncolored g c with _ | ⟨v0, rest⟩
    · exact hp
    · apply ih
      apply assign_proper hsl hp
      have hmem : pickFold (dsaturBetter g c) rest v0 ∈ uncolored g c := by
        rw [hu]
        exact pickFold_mem _ _ _
      exact (mem_uncolored.mp hmem).2

theorem dsaturLoop_extends {g : UGraph} :
    ∀ fuel (c : CMap) (u : Int) (a : Nat), c.lookup u = some a →
      (dsaturLoop g fuel c).lookup u = some a := by
  intro fuel
  induction fuel with
  | zero => intro c u a h; exact h
  | succ n ih =>
    intro c u a h
    unfold dsaturLoop
    rcases hu : uncolored g c with _ | ⟨v0, rest⟩
    · exact h
    · apply ih
      have hmem : pickFold (dsaturBetter g c) rest v0 ∈ uncolored g c := by
        rw [hu]
        exact pickFold_mem _ _ _
      exact assign_extends (mem_uncolored.mp hmem).2 h

theorem dsaturLoop_total {g : UGraph} :
    ∀ fuel (c : CMap), (uncolored g c).length ≤ fuel →
      uncolored g (dsaturLoop g fuel c) = [] := by
  intro fuel
  induction fuel with
  | zero =>
    intro c h
    have : uncolored g c = [] := List.length_eq_zero.mp (Nat.le_zero.mp h)
    unfold dsaturLoop
    exact this
  | succ n ih =>
    intro c h
    unfold dsaturLoop
    rcases hu : uncolored g c with _ | ⟨v0, rest⟩
    · exact hu
    · apply ih
      have hmem : pickFold (dsaturBetter g c) rest v0 ∈ uncolored g c := by
        rw [hu]
        exact pickFold_mem _ _ _
      have := uncolored_assign_lt hmem
      rw [hu] at h this
      simp at h this
      omega

/-! ## Static-order greedy-loop invariants -/

theorem greedyList_proper {g : UGraph} (hsl : SelfLoopFree g) :
    ∀ (order : List Int) (c : CMap), Proper g c → Proper g (greedyList g order c) := by
  intro order
  induction order with
  | nil => intro c hp; exact hp
  | cons v rest ih =>
    intro c hp
    unfold greedyList
    by_cases hv : (c.lookup v).isSome
    · rw [if_pos hv]
      exact ih c hp
    · rw [if_neg hv]
      apply ih
      apply assign_proper hsl hp
      simp only [Option.isSome_iff_ne_none] at hv
      push_neg at hv
      rw [hv]
      rfl

theorem greedyList_extends {g : UGraph} :
    ∀ (order : List Int) (c : CMap) (u : Int) (a : Nat), c.lookup u = some a →
      (greedyList g order c).lookup u = some a := by
  intro order
  induction order with
  | nil => intro c u a h; exact h
  | cons v rest ih =>
    intro c u a h
    unfold greedyList
    by_cases hv : (c.lookup v).isSome
    · rw [if_pos hv]
      exact ih c u a h
    · rw [if_neg hv]
      apply ih
      apply assign_extends _ h
      simp only [Option.isSome_iff_ne_none] at hv
      push_neg at hv
      rw [hv]
      rfl

theorem greedyList_colors_mem {g : UGraph} :
    ∀ (order : List Int) (c : CMap) (v : Int), v ∈ order →
      ((greedyList g order c).lookup v).isSome := by
  intro order
  induction order with
  | nil => intro c v hv; simp at hv
  | cons w rest ih =>
    intro c v hv
    unfold greedyList
    by_cases hw : (c.lookup w).isSome
    · rw [if_pos hw]
      rcases List.mem_cons.mp hv with hvw | hvr
      · subst hvw
        rcases Option.isSome_iff_exists.mp hw with ⟨a, ha⟩
        rw [greedyList_extends rest c v a ha]
        rfl
      · exact ih c v hvr
    · rw [if_neg hw]
      have hwn : (c.lookup w).isNone := by
        simp only [Option.isSome_iff_ne_none] at hw
        push_neg at hw
        rw [hw]
        rfl
      rcases List.mem_cons.mp hv with hvw | hvr
      · subst hvw
        have := assign_lookup_self g c v
        rw [greedyList_extends rest _ v _ this]
        rfl
      · exact ih _ v hvr

/-- Every vertex of the order list is a key of the greedy result; hence an
order covering `g.verts` yields a total coloring. -/
theorem greedyList_total {g : UGraph} {order : List Int} {c : CMap}
    (hcov : ∀ v ∈ g.verts, v ∈ order) : Total g (greedyList g order c) := by
  intro v hv
  exact greedyList_colors_mem order c v (hcov v hv)

/-! ## Order-membership lemmas -/

theorem mem_insertSorted (le : Int → Int → Bool) (x y : Int) :
    ∀ l : List Int, (y ∈ insertSorted le x l ↔ y = x ∨ y ∈ l) := by
  intro l
  induction l with
  | nil => simp [insertSorted]
  | cons z t ih =>
    unfold insertSorted
    by_cases h : le x z
    · rw [if_pos h]
      simp [List.mem_cons]
    · rw [if_neg h]
      simp only [List.mem_cons, ih]
      tauto

theorem mem_sortBy (le : Int → Int → Bool) (l : List Int) (v : Int) :
    v ∈ sortBy le l ↔ v ∈ l := by
  unfold sortBy
  induction l with
  | nil => simp
  | cons x t ih =>
    simp only [List.foldr_cons, mem_insertSorted, List.mem_cons, ih]

theorem mem_wpOrder (g : UGraph) (v : Int) : v ∈ wpOrder g ↔ v ∈ g.verts :=
  mem_sortBy _ _ _

theorem shuffleGo_perm (src : Nat → Nat) :
    ∀ (fuel i : Nat) (l : List Int), List.Perm (shuffleGo src i fuel l) l := by
  intro fuel
  induction fuel with
  | zero =>
    intro i l
    cases l with
    | nil => simp [shuffleGo]
    | cons x t => simp [shuffleGo]
  | succ n ih =>
    intro i l
    cases l with
    | nil => simp [shuffleGo]
    | cons x t =>
      unfold shuffleGo
      have hlen : 0 < (x :: t).length := by simp
      have hmem : (x :: t).getD (src i % (x :: t).length) 0 ∈ x :: t := by
        rw [List.getD_eq_getElem _ _ (Nat.mod_lt _ hlen)]
        exact List.getElem_mem _
      refine List.Perm.trans (List.Perm.cons _ (ih (i + 1) _)) ?_
      exact (List.perm_cons_erase hmem).symm

theorem mem_shuffle (src : Nat → Nat) (l : List Int) (v : Int) :
    v ∈ shuffle src l ↔ v ∈ l :=
  (shuffleGo_perm src l.length 0 l).mem_iff

/-! ## Partial-coloring validator lemmas -/

theorem isValidPartial_eq_false_iff (g : UGraph) (p : CMap) :
    isValidPartial g p = false ↔ BadPartial g p := by
  unfold isValidPartial BadPartial
  rw [← Bool.not_eq_true, List.all_eq_true]
  constructor
  · intro h
    push_neg at h
    obtain ⟨e, he, hbad⟩ := h
    refine ⟨e, he, ?_⟩
    rcases h1 : List.lookup e.1 p with _ | a
    · rw [h1] at hbad
      rcases h2 : List.lookup e.2 p with _ | b <;> rw [h2] at hbad <;> simp at hbad
    · rcases h2 : List.lookup e.2 p with _ | b
      · rw [h1, h2] at hbad
        simp at hbad
      · rw [h1, h2] at hbad
        simp at hbad
        subst hbad
        exact ⟨rfl, rfl⟩
  · rintro ⟨e, he, hsome, heq⟩ hall
    have := hall e he
    rcases h1 : List.lookup e.1 p with _ | a
    · rw [h1] at hsome
      simp at hsome
    · rw [h1] at heq
      rw [h1, ← heq] at this
      simp at this

theorem isValidPartial_iff_proper (g : UGraph) (p : CMap) :
    isValidPartial g p = true ↔ Proper g p := by
  unfold isValidPartial Proper
  rw [List.all_eq_true]
  constructor
  · intro h e he h1 h2
    have := h e he
    rcases hl1 : List.lookup e.1 p with _ | a
    · rw [hl1] at h1
      simp at h1
    · rcases hl2 : List.lookup e.2 p with _ | b
      · rw [hl2] at h2
        simp at h2
      · rw [hl1, hl2] at this
        simp at this
        intro hc
        injection hc with hc
        exact this hc
  · intro h e he
    rcases hl1 : List.lookup e.1 p with _ | a
    · simp [hl1]
    · rcases hl2 : List.lookup e.2 p with _ | b
      · simp [hl1, hl2]
      · have := h e he (by rw [hl1]; rfl) (by rw [hl2]; rfl)
        rw [hl1, hl2] at this
        simp [hl1, hl2]
        intro hc
        exact this (by rw [hc])

/-- The validator's returned copy is always itself proper, valid or not. -/
theorem newPartial_some_valid {p : CMap} {g : UGraph}
    (hval : isValidPartial g p = true) : newPartial (some p) g = (p, true) := by
  simp [newPartial, hval]

theorem newPartial_some_invalid {p : CMap} {g : UGraph}
    (hval : isValidPartial g p = false) : newPartial (some p) g = ([], false) := by
  simp [newPartial, hval]

theorem newPartial_fst_proper (part : Option CMap) (g : UGraph) :
    Proper g (newPartial part g).1 := by
  cases part with
  | none =>
    intro e he h1 h2
    simp [newPartial, List.lookup] at h1
  | some p =>
    by_cases hval : isValidPartial g p = true
    · rw [newPartial_some_valid hval]
      exact (isValidPartial_iff_proper g p).mp hval
    · rw [newPartial_some_invalid (Bool.not_eq_true _ ▸ hval)]
      intro e he h1 h2
      simp [List.lookup] at h1

theorem newPartial_none (g : UGraph) : newPartial none g = ([], true) := rfl

theorem newPartial_snd_iff (p : CMap) (g : UGraph) :
    (newPartial (some p) g).2 = false ↔ BadPartial g p := by
  by_cases hval : isValidPartial g p = true
  · rw [newPartial_some_valid hval]
    constructor
    · intro h
      simp at h
    · intro h
      rw [← isValidPartial_eq_false_iff] at h
      rw [hval] at h
      simp at h
  · rw [newPartial_some_invalid (Bool.not_eq_true _ ▸ hval)]
    constructor
    · intro _
      exact (isValidPartial_eq_false_iff g p).mp (Bool.not_eq_true _ ▸ hval)
    · intro _
      rfl

/-! ## Color-class index lemmas -/

theorem addToClass_keys (acc : List (Nat × List Int)) (v : Int) (k : Nat) :
    (addToClass acc v k).map Prod.fst =
      if k ∈ acc.map Prod.fst then acc.map Prod.fst else acc.map Prod.fst ++ [k] := by
  induction acc with
  | nil => simp [addToClass]
  | cons p t ih =>
    unfold addToClass
    by_cases hk : p.1 = k
    · rw [if_pos hk]
      simp [hk]
    · rw [if_neg hk]
      simp only [List.map_cons, ih, List.mem_cons]
      by_cases hmem : k ∈ t.map Prod.fst
      · rw [if_pos hmem, if_pos (Or.inr hmem)]
      · rw [if_neg hmem, if_neg ?_]
        · simp
        · rintro (h | h)
          · exact hk h.symm
          · exact hmem h

theorem addToClass_length (acc : List (Nat × List Int)) (v : Int) (k : Nat) :
    (addToClass acc v k).length =
      if k ∈ acc.map Prod.fst then acc.length else acc.length + 1 := by
  have h1 : (addToClass acc v k).length = ((addToClass acc v k).map Prod.fst).length := by
    rw [List.length_map]
  have h2 : acc.length = (acc.map Prod.fst).length := by
    rw [List.length_map]
  rw [h1, h2, addToClass_keys]
  by_cases hmem : k ∈ acc.map Prod.fst
  · rw [if_pos hmem, if_pos hmem]
  · rw [if_neg hmem, if_neg hmem]
    simp

theorem setsFold_keys_mem (c : CMap) :
    ∀ (acc : List (Nat × List Int)) (k : Nat),
      (k ∈ (c.foldl (fun acc p => addToClass acc p.1 p.2) acc).map Prod.fst ↔
        k ∈ acc.map Prod.fst ∨ k ∈ c.map Prod.snd) := by
  induction c with
  | nil => simp
  | cons q t ih =>
    intro acc k
    simp only [List.foldl_cons, List.map_cons, List.mem_cons]
    rw [ih]
    rw [addToClass_keys]
    by_cases hmem : q.2 ∈ acc.map Prod.fst
    · rw [if_pos hmem]
      constructor
      · rintro (h | h)
        · exact Or.inl h
        · exact Or.inr (Or.inr h)
      · rintro (h | h | h)
        · exact Or.inl h
        · exact Or.inl (h ▸ hmem)
        · exact Or.inr h
    · rw [if_neg hmem]
      rw [List.mem_append]
      constructor
      · rintro ((h | h) | h)
        · exact Or.inl h
        · simp at h
          exact Or.inr (Or.inl h)
        · exact Or.inr (Or.inr h)
      · rintro (h | h | h)
        · exact Or.inl (Or.inl h)
        · exact Or.inl (Or.inr (by simp [h]))
        · exact Or.inr h

theorem setsFold_keys_nodup (c : CMap) :
    ∀ (acc : List (Nat × List Int)), (acc.map Prod.fst).Nodup →
      ((c.foldl (fun acc p => addToClass acc p.1 p.2) acc).map Prod.fst).Nodup := by
  induction c with
  | nil => intro acc h; exact h
  | cons q t ih =>
    intro acc h
    simp only [List.foldl_cons]
    apply ih
    rw [addToClass_keys]
    by_cases hmem : q.2 ∈ acc.map Prod.fst
    · rw [if_pos hmem]
      exact h
    · rw [if_neg hmem]
      rw [List.nodup_append]
      exact ⟨h, List.nodup_singleton _, by simpa using hmem⟩

/-- The size of the color-class index is the number of distinct colors. -/
theorem Sets_length (c : CMap) : (Sets c).length = kOf c := by
  unfold Sets kOf
  have hnodup := setsFold_keys_nodup c [] (by simp)
  have hmem := fun k => setsFold_keys_mem c [] k
  set F := c.foldl (fun acc p => addToClass acc p.1 p.2) [] with hF
  have h1 : F.length = (F.map Prod.fst).length := by rw [List.length_map]
  have h2 : (F.map Prod.fst).length = (F.map Prod.fst).toFinset.card :=
    (List.toFinset_card_of_nodup hnodup).symm
  have h3 : (F.map Prod.fst).toFinset = (c.map Prod.snd).toFinset := by
    ext k
    rw [List.mem_toFinset, List.mem_toFinset, hmem k]
    simp
  have h4 : (c.map Prod.snd).toFinset.card = (c.map Prod.snd).dedup.length :=
    List.card_toFinset _
  rw [h1, h2, h3, h4]

/-! ## Recursive-Largest-First lemmas -/

theorem classAssign_lookup_mem {c : CMap} {k : Nat} :
    ∀ {cls : List Int} {v : Int}, v ∈ cls → (classAssign c k cls).lookup v = some k := by
  intro cls
  induction cls with
  | nil => intro v hv; simp at hv
  | cons w t ih =>
    intro v hv
    unfold classAssign at *
    by_cases hvw : v = w
    · subst hvw
      exact lookup_cons_self _ _ _
    · rw [List.map_cons, List.cons_append, lookup_cons_ne _ _ _ _ hvw]
      exact ih ((List.mem_cons.mp hv).resolve_left hvw)

theorem classAssign_lookup_not_mem {c : CMap} {k : Nat} :
    ∀ {cls : List Int} {v : Int}, v ∉ cls → (classAssign c k cls).lookup v = c.lookup v := by
  intro cls
  induction cls with
  | nil => intro v _; rfl
  | cons w t ih =>
    intro v hv
    unfold classAssign at *
    have hvw : v ≠ w := fun h => hv (h ▸ List.mem_cons_self _ _)
    rw [List.map_cons, List.cons_append, lookup_cons_ne _ _ _ _ hvw]
    exact ih fun h => hv (List.mem_cons_of_mem _ h)

/-- The grown class stays within the seeds and candidates, contains the seeds,
and is independent (no two members adjacent). -/
theorem rlfGrow_spec (g : UGraph) (hsl : SelfLoopFree g) :
    ∀ (fuel : Nat) (acc cands excl : List Int),
      (∀ a ∈ acc, ∀ b ∈ acc, ¬ Adj g a b) →
      (∀ x ∈ cands, ∀ a ∈ acc, ¬ Adj g x a) →
      (∀ x ∈ rlfGrow g fuel acc cands excl, x ∈ acc ∨ x ∈ cands) ∧
      (∀ a ∈ rlfGrow g fuel acc cands excl, ∀ b ∈ rlfGrow g fuel acc cands excl,
        ¬ Adj g a b) ∧
      (∀ a ∈ acc, a ∈ rlfGrow g fuel acc cands excl) := by
  intro fuel
  induction fuel with
  | zero =>
    intro acc cands excl hind _
    refine ⟨fun x hx => Or.inl hx, ?_, fun a ha => ha⟩
    intro a ha b hb
    exact hind a ha b hb
  | succ n ih =>
    intro acc cands excl hind hunadj
    rcases hc : cands with _ | ⟨c0, rest⟩
    · unfold rlfGrow
      exact ⟨fun x hx => Or.inl hx, fun a ha b hb => hind a ha b hb, fun a ha => ha⟩
    · unfold rlfGrow
      set better : Int → Int → Bool := fun u b =>
        if degIn g excl u ≠ degIn g excl b then degIn g excl b < degIn g excl u
        else u < b with hbetter
      set v := pickFold better rest c0 with hv
      have hvmem : v ∈ c0 :: rest := pickFold_mem better rest c0
      have hvmemc : v ∈ cands := by
        rw [hc]
        exact hvmem
      have hindacc' : ∀ a ∈ v :: acc, ∀ b ∈ v :: acc, ¬ Adj g a b := by
        intro a ha b hb
        rcases List.mem_cons.mp ha with hav | hav
        · rcases List.mem_cons.mp hb with hbv | hbv
          · subst hav
            subst hbv
            exact not_adj_self hsl v
          · subst hav
            exact hunadj v hvmemc b hbv
        · rcases List.mem_cons.mp hb with hbv | hbv
          · subst hbv
            intro hadj
            exact hunadj v hvmemc a hav (adj_symm hadj)
          · exact hind a hav b hbv
      have hunadj' : ∀ x ∈ ((c0 :: rest).erase v).filter (fun u => ¬ Adj g u v),
          ∀ a ∈ v :: acc, ¬ Adj g x a := by
        intro x hx a ha
        have hx1 : x ∈ (c0 :: rest).erase v := List.mem_of_mem_filter hx
        have hx2 : x ∈ cands := by
          rw [hc]
          exact List.mem_of_mem_erase hx1
        have hxv : ¬ Adj g x v := by
          have := List.of_mem_filter hx
          simpa using this
        rcases List.mem_cons.mp ha with hav | hav
        · subst hav
          exact hxv
        · exact hunadj x hx2 a hav
      obtain ⟨hsub, hindr, haccr⟩ := ih (v :: acc)
        (((c0 :: rest).erase v).filter fun u => ¬ Adj g u v)
        (excl ++ ((c0 :: rest).erase v).filter fun u => decide (Adj g u v))
        hindacc' hunadj'
      refine ⟨?_, hindr, ?_⟩
      · intro x hx
        rcases hsub x hx with hxa | hxc
        · rcases List.mem_cons.mp hxa with hxv | hxa'
          · exact Or.inr (hxv ▸ hvmem)
          · exact Or.inl hxa'
        · exact Or.inr (List.mem_of_mem_erase (List.mem_of_mem_filter hxc))
      · intro a ha
        exact haccr a (List.mem_cons_of_mem _ ha)

theorem rlfClass_spec (g : UGraph) (hsl : SelfLoopFree g) (v0 : Int)
    (rest : List Int) :
    (∀ x ∈ rlfClass g v0 rest, x ∈ v0 :: rest) ∧
    (∀ a ∈ rlfClass g v0 rest, ∀ b ∈ rlfClass g v0 rest, ¬ Adj g a b) ∧
    rlfSeed g v0 rest ∈ rlfClass g v0 rest := by
  have hseedmem : rlfSeed g v0 rest ∈ v0 :: rest := pickFold_mem _ _ _
  obtain ⟨hsub, hind, haccr⟩ := rlfGrow_spec g hsl (v0 :: rest).length
    [rlfSeed g v0 rest]
    (((v0 :: rest).erase (rlfSeed g v0 rest)).filter
      fun u => ¬ Adj g u (rlfSeed g v0 rest))
    (((v0 :: rest).erase (rlfSeed g v0 rest)).filter
      fun u => decide (Adj g u (rlfSeed g v0 rest)))
    (by
      intro a ha b hb
      rcases List.mem_singleton.mp ha with rfl
      rcases List.mem_singleton.mp hb with rfl
      exact not_adj_self hsl _)
    (by
      intro x hx a ha
      rcases List.mem_singleton.mp ha with rfl
      have := List.of_mem_filter hx
      simpa using this)
  refine ⟨?_, hind, haccr _ (List.mem_singleton.mpr rfl)⟩
  intro x hx
  rcases hsub x hx with hxa | hxc
  · rcases List.mem_singleton.mp hxa with rfl
    exact hseedmem
  · exact List.mem_of_mem_erase (List.mem_of_mem_filter hxc)

theorem rlfLoop_proper {g : UGraph} (hsl : SelfLoopFree g) :
    ∀ (fuel k : Nat) (c : CMap), Proper g c → ColorsBelow c k →
      Proper g (rlfLoop g fuel k c) := by
  intro fuel
  induction fuel with
  | zero => intro k c hp _; exact hp
  | succ n ih =>
    intro k c hp hbel
    unfold rlfLoop
    rcases hu : uncolored g c with _ | ⟨v0, rest⟩
    · exact hp
    · obtain ⟨hsub, hind, hseedcls⟩ := rlfClass_spec g hsl v0 rest
      apply ih (k + 1)
      · intro e he h1 h2
        by_cases h1c : e.1 ∈ rlfClass g v0 rest
        · by_cases h2c : e.2 ∈ rlfClass g v0 rest
          · exfalso
            apply hind e.1 h1c e.2 h2c
            unfold Adj
            rw [mem_neighbors]
            exact ⟨e, he, Or.inr (Prod.ext_iff.mpr ⟨rfl, rfl⟩)⟩
          · rw [classAssign_lookup_mem h1c] at h1 ⊢
            rw [classAssign_lookup_not_mem h2c] at h2 ⊢
            rcases Option.isSome_iff_exists.mp h2 with ⟨b, hb⟩
            have hblt := hbel e.2 b hb
            rw [hb]
            intro hcon
            injection hcon with hcon
            omega
        · by_cases h2c : e.2 ∈ rlfClass g v0 rest
          · rw [classAssign_lookup_not_mem h1c] at h1 ⊢
            rw [classAssign_lookup_mem h2c] at h2 ⊢
            rcases Option.isSome_iff_exists.mp h1 with ⟨b, hb⟩
            have hblt := hbel e.1 b hb
            rw [hb]
            intro hcon
            injection hcon with hcon
            omega
          · rw [classAssign_lookup_not_mem h1c] at h1 ⊢
            rw [classAssign_lookup_not_mem h2c] at h2 ⊢
            exact hp e he h1 h2
      · intro v a hva
        by_cases hvc : v ∈ rlfClass g v0 rest
        · rw [classAssign_lookup_mem hvc] at hva
          injection hva with hva
          omega
        · rw [classAssign_lookup_not_mem hvc] at hva
          have := hbel v a hva
          omega

theorem rlfLoop_total {g : UGraph} (hsl : SelfLoopFree g) :
    ∀ (fuel k : Nat) (c : CMap), (uncolored g c).length ≤ fuel →
      uncolored g (rlfLoop g fuel k c) = [] := by
  intro fuel
  induction fuel with
  | zero =>
    intro k c h
    have : uncolored g c = [] := List.length_eq_zero.mp (Nat.le_zero.mp h)
    unfold rlfLoop
    exact this
  | succ n ih =>
    intro k c h
    unfold rlfLoop
    rcases hu : uncolored g c with _ | ⟨v0, rest⟩
    · exact hu
    · obtain ⟨hsub, _, hseedcls⟩ := rlfClass_spec g hsl v0 rest
      have hseedmem : rlfSeed g v0 rest ∈ uncolored g c := by
        rw [hu]
        exact hsub _ hseedcls
      apply ih
      have hlt : (uncolored g (classAssign c k (rlfClass g v0 rest))).length <
          (uncolored g c).length := by
        unfold uncolored
        apply filter_length_lt_of_witness (rlfSeed g v0 rest) g.verts
        · intro x hx hq
          by_cases hxc : x ∈ rlfClass g v0 rest
          · rw [classAssign_lookup_mem hxc] at hq
            simp at hq
          · rw [classAssign_lookup_not_mem hxc] at hq
            exact hq
        · exact (mem_uncolored.mp hseedmem).1
        · exact (mem_uncolored.mp hseedmem).2
        · rw [classAssign_lookup_mem hseedcls]
          simp
      rw [hu] at h hlt
      omega


/-! ## Branch-and-bound: invariants and soundness -/

/-- Inserting a color that conflicts with no colored neighbor of an uncolored
vertex preserves properness. -/
theorem insert_proper {g : UGraph} (hsl : SelfLoopFree g) {c : CMap}
    (hp : Proper g c) {v : Int} (hv : (c.lookup v).isNone) {q : Nat}
    (hfeas : ∀ u b, Adj g u v → c.lookup u = some b → b ≠ q) :
    Proper g ((v, q) :: c) := by
  intro e he h1 h2
  by_cases h1v : e.1 = v
  · by_cases h2v : e.2 = v
    · exfalso
      apply not_adj_self hsl v
      unfold Adj
      rw [mem_neighbors]
      exact ⟨e, he, Or.inl (Prod.ext_iff.mpr ⟨h1v, h2v⟩)⟩
    · have hl1 : ((v, q) :: c).lookup e.1 = some q := by
        rw [h1v]
        exact lookup_cons_self _ _ _
      rcases Option.isSome_iff_exists.mp h2 with ⟨b, hb⟩
      have hb' : c.lookup e.2 = some b := by
        rw [← lookup_cons_ne c _ v q h2v]
        exact hb
      have hadj : Adj g e.2 v := by
        unfold Adj
        rw [mem_neighbors]
        exact ⟨e, he, Or.inl (Prod.ext_iff.mpr ⟨h1v, rfl⟩)⟩
      have hne := hfeas e.2 b hadj hb'
      rw [hl1, hb]
      intro hcontra
      injection hcontra with hcontra
      exact hne hcontra.symm
  · by_cases h2v : e.2 = v
    · have hl2 : ((v, q) :: c).lookup e.2 = some q := by
        rw [h2v]
        exact lookup_cons_self _ _ _
      rcases Option.isSome_iff_exists.mp h1 with ⟨b, hb⟩
      have hb' : c.lookup e.1 = some b := by
        rw [← lookup_cons_ne c _ v q h1v]
        exact hb
      have hadj : Adj g e.1 v := by
        unfold Adj
        rw [mem_neighbors]
        exact ⟨e, he, Or.inr (Prod.ext_iff.mpr ⟨rfl, h2v⟩)⟩
      have hne := hfeas e.1 b hadj hb'
      rw [hl2, hb]
      intro hcontra
      injection hcontra with hcontra
      exact hne hcontra
    · rw [lookup_cons_ne c _ v q h1v] at h1 ⊢
      rw [lookup_cons_ne c _ v q h2v] at h2 ⊢
      exact hp e he h1 h2

theorem uncolored_insert_lt {g : UGraph} {c : CMap} {v : Int} {q : Nat}
    (hv : v ∈ uncolored g c) :
    (uncolored g ((v, q) :: c)).length < (uncolored g c).length := by
  rcases mem_uncolored.mp hv with ⟨hvv, hvn⟩
  unfold uncolored
  apply filter_length_lt_of_witness v g.verts
  · intro x hx hq
    by_cases hxv : x = v
    · subst hxv
      simpa using hvn
    · rw [lookup_cons_ne c _ v q hxv] at hq
      exact hq
  · exact hvv
  · simpa using hvn
  · rw [lookup_cons_self]
    rfl

/-- A coloring whose colors are exactly `0 .. used-1` uses `used` distinct
colors. -/
theorem kOf_eq_of_colors_range {c : CMap} {used : Nat}
    (hlt : ∀ p ∈ c, p.2 < used)
    (honto : ∀ q, q < used → ∃ v, c.lookup v = some q) :
    kOf c = used := by
  unfold kOf
  have h1 : (c.map Prod.snd).toFinset = Finset.range used := by
    ext q
    rw [List.mem_toFinset, Finset.mem_range]
    constructor
    · intro hq
      rcases List.mem_map.mp hq with ⟨p, hp, hpq⟩
      exact hpq ▸ hlt p hp
    · intro hq
      rcases honto q hq with ⟨v, hv⟩
      exact List.mem_map.mpr ⟨(v, q), lookup_mem hv, rfl⟩
  have h2 := List.card_toFinset (c.map Prod.snd)
  rw [h1, Finset.card_range] at h2
  omega

theorem foldl_preserve {α β : Type} (P : β → Prop) (f : β → α → β) :
    ∀ (l : List α) (init : β), P init →
      (∀ b a, a ∈ l → P b → P (f b a)) → P (l.foldl f init) := by
  intro l
  induction l with
  | nil =>
    intro init h _
    exact h
  | cons x t ih =>
    intro init h hstep
    simp only [List.foldl_cons]
    exact ih _ (hstep init x (List.mem_cons_self _ _) h)
      (fun b a ha hb => hstep b a (List.mem_cons_of_mem _ ha) hb)

theorem feasible_spec {g : UGraph} {c : CMap} {v : Int} {q : Nat}
    (h : feasible g c v q = true) :
    ∀ u b, Adj g u v → c.lookup u = some b → b ≠ q := by
  intro u b hadj hub hbq
  have := List.all_eq_true.mp h u hadj
  rw [hub, hbq] at this
  simp at this

theorem searchInv_insert_used {g : UGraph} (hsl : SelfLoopFree g) {c : CMap}
    {used q : Nat} (hinv : SearchInv g c used) {v : Int}
    (hv : (c.lookup v).isNone) (hq : q < used)
    (hfeas : feasible g c v q = true) :
    SearchInv g ((v, q) :: c) used := by
  obtain ⟨hp, hlt, honto⟩ := hinv
  refine ⟨insert_proper hsl hp hv (feasible_spec hfeas), ?_, ?_⟩
  · intro p hp'
    rcases List.mem_cons.mp hp' with hpp | hpp
    · rw [hpp]
      exact hq
    · exact hlt p hpp
  · intro q' hq'
    rcases honto q' hq' with ⟨w, hw⟩
    have hwv : w ≠ v := by
      intro h
      subst h
      rw [hw] at hv
      simp at hv
    exact ⟨w, by rw [lookup_cons_ne c _ v q hwv]; exact hw⟩

theorem searchInv_insert_fresh {g : UGraph} (hsl : SelfLoopFree g) {c : CMap}
    {used : Nat} (hinv : SearchInv g c used) {v : Int}
    (hv : (c.lookup v).isNone) :
    SearchInv g ((v, used) :: c) (used + 1) := by
  obtain ⟨hp, hlt, honto⟩ := hinv
  refine ⟨insert_proper hsl hp hv ?_, ?_, ?_⟩
  · intro u b _ hub hbq
    have : b < used := hlt (u, b) (lookup_mem hub)
    omega
  · intro p hp'
    rcases List.mem_cons.mp hp' with hpp | hpp
    · rw [hpp]
      omega
    · have := hlt p hpp
      omega
  · intro q' hq'
    by_cases hq'u : q' = used
    · subst hq'u
      exact ⟨v, lookup_cons_self _ _ _⟩
    · have : q' < used := by omega
      rcases honto q' this with ⟨w, hw⟩
      have hwv : w ≠ v := by
        intro h
        subst h
        rw [hw] at hv
        simp at hv
      exact ⟨w, by rw [lookup_cons_ne c _ v used hwv]; exact hw⟩

/-- Soundness of the search: whatever the terminator does, the best-known
solution remains a proper, complete coloring with consistent count. -/
theorem branchBB_sound {g : UGraph} (hsl : SelfLoopFree g) :
    ∀ (fuel : Nat) (c : CMap) (used : Nat) (st : BBState),
      SearchInv g c used → BestInv g st → BestInv g (branchBB g fuel c used st) := by
  intro fuel
  induction fuel with
  | zero =>
    intro c used st _ hb
    exact hb
  | succ n ih =>
    intro c used st hinv hb
    unfold branchBB
    by_cases hcan : st.cancelled
    · rw [if_pos hcan]
      exact hb
    · rw [if_neg hcan]
      by_cases hfire : (pollFire st.tb).2
      · rw [if_pos hfire]
        exact hb
      · rw [if_neg hfire]
        by_cases hprune : st.bestK ≤ used
        · rw [if_pos hprune]
          exact hb
        · rw [if_neg hprune]
          rcases hu : uncolored g c with _ | ⟨v0, rest⟩
          · have htot : Total g c := (uncolored_eq_nil_iff g c).mp hu
            exact ⟨hinv.1, htot, kOf_eq_of_colors_range hinv.2.1 hinv.2.2⟩
          · have hvmem : pickFold (dsaturBetter g c) rest v0 ∈ uncolored g c := by
              rw [hu]
              exact pickFold_mem _ _ _
            have hvnone : (c.lookup (pickFold (dsaturBetter g c) rest v0)).isNone :=
              (mem_uncolored.mp hvmem).2
            refine foldl_preserve (BestInv g)
              (fun s q => branchBB g n
                ((pickFold (dsaturBetter g c) rest v0, q) :: c)
                (if q = used then used + 1 else used) s)
              ((List.range used).filter (fun q =>
                feasible g c (pickFold (dsaturBetter g c) rest v0) q) ++ [used])
              { st with tb := (pollFire st.tb).1 }
              hb ?_
            intro s q hql hs
            rcases List.mem_append.mp hql with hqf | hqu
            · have hq1 : q < used := List.mem_range.mp (List.mem_of_mem_filter hqf)
              have hq2 : feasible g c (pickFold (dsaturBetter g c) rest v0) q = true := by
                have := List.of_mem_filter hqf
                simpa using this
              have hne : ¬ q = used := by omega
              show BestInv g (branchBB g n
                ((pickFold (dsaturBetter g c) rest v0, q) :: c)
                (if q = used then used + 1 else used) s)
              rw [if_neg hne]
              exact ih _ used s (searchInv_insert_used hsl hinv hvnone hq1 hq2) hs
            · have hq : q = used := by simpa using hqu
              subst hq
              show BestInv g (branchBB g n
                ((pickFold (dsaturBetter g c) rest v0, q) :: c)
                (if q = q then q + 1 else q) s)
              rw [if_pos rfl]
              exact ih _ (q + 1) s (searchInv_insert_fresh hsl hinv hvnone) hs

/-- Monotonicity: the recorded best count never increases. -/
theorem branchBB_mono {g : UGraph} :
    ∀ (fuel : Nat) (c : CMap) (used : Nat) (st : BBState),
      (branchBB g fuel c used st).bestK ≤ st.bestK := by
  intro fuel
  induction fuel with
  | zero =>
    intro c used st
    exact Nat.le_refl _
  | succ n ih =>
    intro c used st
    unfold branchBB
    by_cases hcan : st.cancelled
    · rw [if_pos hcan]
    · rw [if_neg hcan]
      by_cases hfire : (pollFire st.tb).2
      · rw [if_pos hfire]
      · rw [if_neg hfire]
        by_cases hprune : st.bestK ≤ used
        · rw [if_pos hprune]
        · rw [if_neg hprune]
          rcases hu : uncolored g c with _ | ⟨v0, rest⟩
          · simp only []
            omega
          · have := foldl_preserve (fun s => s.bestK ≤ st.bestK)
              (fun s q => branchBB g n
                ((pickFold (dsaturBetter g c) rest v0, q) :: c)
                (if q = used then used + 1 else used) s)
              ((List.range used).filter (fun q =>
                feasible g c (pickFold (dsaturBetter g c) rest v0) q) ++ [used])
              { st with tb := (pollFire st.tb).1 }
              (Nat.le_refl _)
              (fun s q _ hs => Nat.le_trans (ih _ _ s) hs)
            exact this

/-- With no deadline the search neither consumes budget nor cancels. -/
theorem branchBB_pres {g : UGraph} :
    ∀ (fuel : Nat) (c : CMap) (used : Nat) (st : BBState),
      st.tb = none → st.cancelled = false →
      (branchBB g fuel c used st).tb = none ∧
        (branchBB g fuel c used st).cancelled = false := by
  intro fuel
  induction fuel with
  | zero =>
    intro c used st htb hcan
    exact ⟨htb, hcan⟩
  | succ n ih =>
    intro c used st htb hcan
    unfold branchBB
    rw [if_neg (by simp [hcan])]
    have hfire : (pollFire st.tb).2 = false := by rw [htb]; rfl
    rw [if_neg (by simp [hfire])]
    have htb1 : (pollFire st.tb).1 = none := by rw [htb]; rfl
    by_cases hprune : st.bestK ≤ used
    · rw [if_pos hprune]
      exact ⟨htb1, hcan⟩
    · rw [if_neg hprune]
      rcases hu : uncolored g c with _ | ⟨v0, rest⟩
      · exact ⟨htb1, hcan⟩
      · refine foldl_preserve (fun s => s.tb = none ∧ s.cancelled = false)
          (fun s q => branchBB g n
            ((pickFold (dsaturBetter g c) rest v0, q) :: c)
            (if q = used then used + 1 else used) s)
          ((List.range used).filter (fun q =>
            feasible g c (pickFold (dsaturBetter g c) rest v0) q) ++ [used])
          { st with tb := (pollFire st.tb).1 }
          ⟨htb1, hcan⟩ ?_
        intro s q _ hs
        show (branchBB g n ((pickFold (dsaturBetter g c) rest v0, q) :: c)
            (if q = used then used + 1 else used) s).tb = none ∧
          (branchBB g n ((pickFold (dsaturBetter g c) rest v0, q) :: c)
            (if q = used then used + 1 else used) s).cancelled = false
        exact ih _ _ s hs.1 hs.2

/-! ## Branch-and-bound: completeness -/

/-- A compatible node has committed no more colors than `φ` uses. -/
theorem compat_used_le {φ : CMap} {σ : Nat → Option Nat} {c : CMap}
    {used : Nat} (hc : Compat φ σ c used) : used ≤ kOf φ := by
  obtain ⟨-, hinj, -, honto⟩ := hc
  classical
  have hex : ∀ a : Nat, ∃ q : Nat,
      a < used → σ q = some a ∧ q ∈ (φ.map Prod.snd).toFinset := by
    intro a
    by_cases ha : a < used
    · rcases honto a ha with ⟨q, u, hq, hu⟩
      exact ⟨q, fun _ =>
        ⟨hq, List.mem_toFinset.mpr (List.mem_map.mpr ⟨(u, q), lookup_mem hu, rfl⟩)⟩⟩
    · exact ⟨0, fun h => absurd h ha⟩
  choose f hf using hex
  have hcard : (Finset.range used).card ≤ ((φ.map Prod.snd).toFinset).card := by
    apply Finset.card_le_card_of_injOn f
    · intro a ha
      exact (hf a (Finset.mem_range.mp ha)).2
    · intro a ha b hb hab
      have ha' := (hf a (Finset.mem_range.mp ha)).1
      have hb' := (hf b (Finset.mem_range.mp hb)).1
      rw [hab] at ha'
      rw [ha'] at hb'
      exact Option.some_injective _ hb'
  rw [Finset.card_range, List.card_toFinset] at hcard
  exact hcard

theorem compat_insert {φ : CMap} {σ : Nat → Option Nat} {c : CMap}
    {used : Nat} {v : Int} {a qv : Nat} (hcompat : Compat φ σ c used)
    (hqv : φ.lookup v = some qv) (hσv : σ qv = some a) :
    Compat φ σ ((v, a) :: c) used := by
  obtain ⟨hdom, hinj, himg, honto⟩ := hcompat
  refine ⟨?_, hinj, himg, honto⟩
  intro u b hub
  by_cases huv : u = v
  · subst huv
    rw [lookup_cons_self] at hub
    injection hub with hub
    subst hub
    exact ⟨qv, hqv, hσv⟩
  · rw [lookup_cons_ne c _ v a huv] at hub
    exact hdom u b hub

theorem extendRen_self (σ : Nat → Option Nat) (qv used : Nat) :
    extendRen σ qv used qv = some used := by
  simp [extendRen]

theorem extendRen_ne (σ : Nat → Option Nat) (qv used : Nat) {q : Nat}
    (h : ¬ q = qv) : extendRen σ qv used q = σ q := by
  simp [extendRen, h]

theorem compat_insert_fresh {φ : CMap} {σ : Nat → Option Nat} {c : CMap}
    {used : Nat} {v : Int} {qv : Nat} (hcompat : Compat φ σ c used)
    (hqv : φ.lookup v = some qv) (hσv : σ qv = none) :
    Compat φ (extendRen σ qv used) ((v, used) :: c) (used + 1) := by
  obtain ⟨hdom, hinj, himg, honto⟩ := hcompat
  refine ⟨?_, ?_, ?_, ?_⟩
  · intro u b hub
    by_cases huv : u = v
    · subst huv
      rw [lookup_cons_self] at hub
      injection hub with hub
      subst hub
      exact ⟨qv, hqv, extendRen_self σ qv used⟩
    · rw [lookup_cons_ne c _ v used huv] at hub
      rcases hdom u b hub with ⟨qu, hqu, hσu⟩
      have hne : ¬ qu = qv := by
        intro h
        rw [h, hσv] at hσu
        exact Option.noConfusion hσu
      exact ⟨qu, hqu, by rw [extendRen_ne σ qv used hne]; exact hσu⟩
  · intro q1 q2 b h1 h2
    by_cases hq1 : q1 = qv
    · by_cases hq2 : q2 = qv
      · rw [hq1, hq2]
      · rw [hq1, extendRen_self] at h1
        rw [extendRen_ne σ qv used hq2] at h2
        injection h1 with h1
        rw [← h1] at h2
        have := himg q2 used h2
        omega
    · rw [extendRen_ne σ qv used hq1] at h1
      by_cases hq2 : q2 = qv
      · rw [hq2, extendRen_self] at h2
        injection h2 with h2
        rw [← h2] at h1
        have := himg q1 used h1
        omega
      · rw [extendRen_ne σ qv used hq2] at h2
        exact hinj q1 q2 b h1 h2
  · intro q b hq
    by_cases hqq : q = qv
    · subst hqq
      rw [extendRen_self] at hq
      injection hq with hq
      omega
    · rw [extendRen_ne σ qv used hqq] at hq
      have := himg q b hq
      omega
  · intro b hb
    by_cases hbu : b = used
    · refine ⟨qv, v, ?_, hqv⟩
      rw [hbu]
      exact extendRen_self σ qv used
    · have hblt : b < used := by omega
      rcases honto b hblt with ⟨q, u, hq, hu⟩
      have hne : ¬ q = qv := by
        intro h
        rw [h, hσv] at hq
        exact Option.noConfusion hq
      exact ⟨q, u, by rw [extendRen_ne σ qv used hne]; exact hq, hu⟩

/-- A committed color taken by `φ` through `σ` is feasible for the next
vertex. -/
theorem compat_feasible {g : UGraph} {φ : CMap} {σ : Nat → Option Nat}
    {c : CMap} {used : Nat} {v : Int} {a qv : Nat} (hφp : Proper g φ)
    (hcompat : Compat φ σ c used) (hqv : φ.lookup v = some qv)
    (hσv : σ qv = some a) : feasible g c v a = true := by
  obtain ⟨hdom, hinj, -, -⟩ := hcompat
  unfold feasible
  rw [List.all_eq_true]
  intro u hu
  simp only [decide_eq_true_eq]
  intro hua
  rcases hdom u a hua with ⟨qu, hqu, hσu⟩
  have hq : qu = qv := hinj qu qv a hσu hσv
  subst hq
  exact proper_adj hφp hu hqu hqv rfl

/-- Reaching lemma for the branch fold: if the target branch `qstar` occurs in
the branch list, the step is monotone and preserves `P`, and from every
`P`-state the target branch drives the best count to at most `m`, then the
whole fold does. -/
theorem foldl_reach_le (P : BBState → Prop) (f : BBState → Nat → BBState)
    (m qstar : Nat) :
    ∀ (l : List Nat) (init : BBState), qstar ∈ l →
      (∀ s a, a ∈ l → (f s a).bestK ≤ s.bestK) →
      (∀ s a, a ∈ l → P s → P (f s a)) →
      (∀ s, P s → (f s qstar).bestK ≤ m) →
      P init → (l.foldl f init).bestK ≤ m := by
  intro l
  induction l with
  | nil =>
    intro init hq
    simp at hq
  | cons x t ih =>
    intro init hq hmono hpres hbranch hinit
    simp only [List.foldl_cons]
    by_cases hx : x = qstar
    · subst hx
      have h1 : (f init x).bestK ≤ m := hbranch init hinit
      have h2 : (t.foldl f (f init x)).bestK ≤ (f init x).bestK :=
        foldl_preserve (fun s => s.bestK ≤ (f init x).bestK) f t (f init x)
          (Nat.le_refl _)
          (fun b a ha hb =>
            Nat.le_trans (hmono b a (List.mem_cons_of_mem _ ha)) hb)
      omega
    · have hqt : qstar ∈ t := by
        rcases List.mem_cons.mp hq with h | h
        · exact absurd h.symm hx
        · exact h
      exact ih (f init x) hqt
        (fun s a ha => hmono s a (List.mem_cons_of_mem _ ha))
        (fun s a ha hs => hpres s a (List.mem_cons_of_mem _ ha) hs)
        hbranch
        (hpres init x (List.mem_cons_self _ _) hinit)

/-- Completeness of the uncancelled search: the final best count is at most
the distinct-color count of any proper total coloring `φ`. -/
theorem branchBB_complete {g : UGraph} {φ : CMap}
    (hφp : Proper g φ) (hφt : Total g φ) :
    ∀ (fuel : Nat) (c : CMap) (used : Nat) (σ : Nat → Option Nat) (st : BBState),
      (uncolored g c).length < fuel →
      Compat φ σ c used →
      st.tb = none → st.cancelled = false →
      (branchBB g fuel c used st).bestK ≤ kOf φ := by
  intro fuel
  induction fuel with
  | zero =>
    intro c used σ st hfuel
    omega
  | succ n ih =>
    intro c used σ st hfuel hcompat htb hcan
    have hple : used ≤ kOf φ := compat_used_le hcompat
    unfold branchBB
    rw [if_neg (by simp [hcan])]
    have hfire : (pollFire st.tb).2 = false := by rw [htb]; rfl
    rw [if_neg (by simp [hfire])]
    have htb1 : (pollFire st.tb).1 = none := by rw [htb]; rfl
    by_cases hprune : st.bestK ≤ used
    · rw [if_pos hprune]
      show st.bestK ≤ kOf φ
      omega
    · rw [if_neg hprune]
      rcases hu : uncolored g c with _ | ⟨v0, rest⟩
      · show used ≤ kOf φ
        exact hple
      · have hvmem : pickFold (dsaturBetter g c) rest v0 ∈ uncolored g c := by
          rw [hu]
          exact pickFold_mem _ _ _
        have hvnone : (c.lookup (pickFold (dsaturBetter g c) rest v0)).isNone :=
          (mem_uncolored.mp hvmem).2
        have hvvert : pickFold (dsaturBetter g c) rest v0 ∈ g.verts :=
          (mem_uncolored.mp hvmem).1
        rcases Option.isSome_iff_exists.mp (hφt _ hvvert) with ⟨qv, hqv⟩
        have hfuel' : ∀ q : Nat,
            (uncolored g ((pickFold (dsaturBetter g c) rest v0, q) :: c)).length < n := by
          intro q
          have := @uncolored_insert_lt g c (pickFold (dsaturBetter g c) rest v0) q hvmem
          rw [hu] at hfuel this
          omega
        rcases hσv : σ qv with _ | a
        · -- fresh-color branch: φ's color at v is not yet committed
          refine foldl_reach_le (fun s => s.tb = none ∧ s.cancelled = false)
            (fun s q => branchBB g n
              ((pickFold (dsaturBetter g c) rest v0, q) :: c)
              (if q = used then used + 1 else used) s)
            (kOf φ) used
            ((List.range used).filter (fun q =>
              feasible g c (pickFold (dsaturBetter g c) rest v0) q) ++ [used])
            { st with tb := (pollFire st.tb).1 }
            (List.mem_append.mpr (Or.inr (List.mem_singleton.mpr rfl)))
            ?_ ?_ ?_ ⟨htb1, hcan⟩
          · intro s a _
            show (branchBB g n ((pickFold (dsaturBetter g c) rest v0, a) :: c)
                (if a = used then used + 1 else used) s).bestK ≤ s.bestK
            exact branchBB_mono n _ _ s
          · intro s a _ hs
            show (branchBB g n ((pickFold (dsaturBetter g c) rest v0, a) :: c)
                (if a = used then used + 1 else used) s).tb = none ∧
              (branchBB g n ((pickFold (dsaturBetter g c) rest v0, a) :: c)
                (if a = used then used + 1 else used) s).cancelled = false
            exact branchBB_pres n _ _ s hs.1 hs.2
          · intro s hs
            show (branchBB g n ((pickFold (dsaturBetter g c) rest v0, used) :: c)
                (if used = used then used + 1 else used) s).bestK ≤ kOf φ
            rw [if_pos rfl]
            exact ih _ (used + 1) _ s (hfuel' used)
              (compat_insert_fresh hcompat hqv hσv) hs.1 hs.2
        · -- used-color branch: reuse the committed rename of φ's color at v
          have halt : a < used := hcompat.2.2.1 qv a hσv
          have hfeas : feasible g c (pickFold (dsaturBetter g c) rest v0) a = true :=
            compat_feasible hφp hcompat hqv hσv
          refine foldl_reach_le (fun s => s.tb = none ∧ s.cancelled = false)
            (fun s q => branchBB g n
              ((pickFold (dsaturBetter g c) rest v0, q) :: c)
              (if q = used then used + 1 else used) s)
            (kOf φ) a
            ((List.range used).filter (fun q =>
              feasible g c (pickFold (dsaturBetter g c) rest v0) q) ++ [used])
            { st with tb := (pollFire st.tb).1 }
            (List.mem_append.mpr (Or.inl (List.mem_filter.mpr
              ⟨List.mem_range.mpr halt, by simpa using hfeas⟩)))
            ?_ ?_ ?_ ⟨htb1, hcan⟩
          · intro s b _
            show (branchBB g n ((pickFold (dsaturBetter g c) rest v0, b) :: c)
                (if b = used then used + 1 else used) s).bestK ≤ s.bestK
            exact branchBB_mono n _ _ s
          · intro s b _ hs
            show (branchBB g n ((pickFold (dsaturBetter g c) rest v0, b) :: c)
                (if b = used then used + 1 else used) s).tb = none ∧
              (branchBB g n ((pickFold (dsaturBetter g c) rest v0, b) :: c)
                (if b = used then used + 1 else used) s).cancelled = false
            exact branchBB_pres n _ _ s hs.1 hs.2
          · intro s hs
            show (branchBB g n ((pickFold (dsaturBetter g c) rest v0, a) :: c)
                (if a = used then used + 1 else used) s).bestK ≤ kOf φ
            rw [if_neg (by omega)]
            exact ih _ used _ s (hfuel' a)
              (compat_insert hcompat hqv hσv) hs.1 hs.2

/-! ## Algorithm-level assembly lemmas -/

theorem saturationGreedy_proper {g : UGraph} (hsl : SelfLoopFree g)
    {seed : CMap} (hp : Proper g seed) : Proper g (saturationGreedy g seed) :=
  dsaturLoop_proper hsl _ seed hp

theorem saturationGreedy_total (g : UGraph) (seed : CMap) :
    Total g (saturationGreedy g seed) :=
  (uncolored_eq_nil_iff g _).mp (dsaturLoop_total _ seed (Nat.le_refl _))

theorem saturationGreedy_extends (g : UGraph) (seed : CMap) {u : Int} {a : Nat}
    (h : seed.lookup u = some a) : (saturationGreedy g seed).lookup u = some a :=
  dsaturLoop_extends _ seed u a h

/-- Inversion of a successful `Dsatur` call. -/
theorem Dsatur_ok {g : UGraph} {part : Option CMap} {k : Nat} {c : CMap}
    (h : Dsatur g part = .ok (k, c)) :
    (newPartial part g).2 = true ∧ c = saturationGreedy g (newPartial part g).1 ∧
      k = kOf c := by
  unfold Dsatur at h
  rcases hnp : newPartial part g with ⟨p, b⟩
  rw [hnp] at h
  cases b
  · simp at h
  · simp at h
    exact ⟨rfl, h.2.symm, by rw [← h.2]; exact h.1.symm⟩

theorem SanSegundo_ok {g : UGraph} {part : Option CMap} {k : Nat} {c : CMap}
    (h : SanSegundo g part = .ok (k, c)) :
    (newPartial part g).2 = true ∧ c = saturationGreedy g (newPartial part g).1 ∧
      k = kOf c := by
  unfold SanSegundo at h
  rcases hnp : newPartial part g with ⟨p, b⟩
  rw [hnp] at h
  cases b
  · simp at h
  · simp at h
    exact ⟨rfl, h.2.symm, by rw [← h.2]; exact h.1.symm⟩

theorem WelshPowell_ok {g : UGraph} {part : Option CMap} {k : Nat} {c : CMap}
    (h : WelshPowell g part = .ok (k, c)) :
    (newPartial part g).2 = true ∧
      c = greedyList g (wpOrder g) (newPartial part g).1 ∧ k = kOf c := by
  unfold WelshPowell at h
  rcases hnp : newPartial part g with ⟨p, b⟩
  rw [hnp] at h
  cases b
  · simp at h
  · simp at h
    exact ⟨rfl, h.2.symm, by rw [← h.2]; exact h.1.symm⟩

theorem Randomized_ok {g : UGraph} {part : Option CMap} {src : Nat → Nat}
    {k : Nat} {c : CMap} (h : Randomized g part src = .ok (k, c)) :
    (newPartial part g).2 = true ∧
      c = greedyList g (shuffle src g.verts) (newPartial part g).1 ∧ k = kOf c := by
  unfold Randomized at h
  rcases hnp : newPartial part g with ⟨p, b⟩
  rw [hnp] at h
  cases b
  · simp at h
  · simp at h
    exact ⟨rfl, h.2.symm, by rw [← h.2]; exact h.1.symm⟩

theorem searchInv_empty (g : UGraph) : SearchInv g [] 0 := by
  refine ⟨?_, ?_, ?_⟩
  · intro e he h1
    simp [List.lookup] at h1
  · intro p hp
    simp at hp
  · intro q hq
    omega

theorem bestInv_init {g : UGraph} (hsl : SelfLoopFree g)
    (term : Option Terminator) : BestInv g (bbInit term g) := by
  refine ⟨?_, ?_, rfl⟩
  · exact saturationGreedy_proper hsl (by intro e he h1; simp [List.lookup] at h1)
  · exact saturationGreedy_total g []

theorem bestInv_final {g : UGraph} (hsl : SelfLoopFree g)
    (term : Option Terminator) : BestInv g (bbFinal term g) :=
  branchBB_sound hsl _ [] 0 _ (searchInv_empty g) (bestInv_init hsl term)

theorem compat_empty (φ : CMap) : Compat φ (fun _ => none) [] 0 := by
  refine ⟨?_, ?_, ?_, ?_⟩
  · intro u a h
    simp [List.lookup] at h
  · intro q1 q2 a h
    exact Option.noConfusion h
  · intro q a h
    exact Option.noConfusion h
  · intro a ha
    omega

theorem bbFinal_bestK_le {g : UGraph} {φ : CMap} (hφp : Proper g φ)
    (hφt : Total g φ) {term : Option Terminator}
    (hterm : termBudget term = none) :
    (bbFinal term g).bestK ≤ kOf φ := by
  apply branchBB_complete hφp hφt (g.verts.length + 1) [] 0 (fun _ => none)
  · have := List.length_filter_le (fun v => (List.lookup v ([] : CMap)).isNone) g.verts
    unfold uncolored
    omega
  · exact compat_empty φ
  · exact hterm
  · rfl

theorem bbFinal_not_cancelled {g : UGraph} {term : Option Terminator}
    (hterm : termBudget term = none) :
    (bbFinal term g).cancelled = false :=
  (branchBB_pres _ [] 0 (bbInit term g) hterm rfl).2

/-- With an already-expired terminator the very first poll cancels the search
and the heuristic seed is returned unchanged. -/
theorem bbFinal_expired {g : UGraph} {t : Terminator} (hexp : t.budget = some 0) :
    bbFinal (some t) g =
      { tb := some 0, cancelled := true,
        bestK := kOf (saturationGreedy g []), best := saturationGreedy g [] } := by
  unfold bbFinal
  unfold branchBB
  have htb : (bbInit (some t) g).tb = some 0 := hexp
  rw [if_neg (by simp [bbInit])]
  rw [htb]
  rw [if_pos (show (pollFire (some 0)).2 = true from rfl)]
  rfl

/-! ## Small helper facts for the claim theorems -/

theorem uncolored_nil (g : UGraph) : uncolored g [] = g.verts := by
  unfold uncolored
  apply List.filter_eq_self.mpr
  intro v _
  rfl

theorem proper_nil (g : UGraph) : Proper g ([] : CMap) := by
  intro e he h1
  simp [List.lookup] at h1

theorem colorsBelow_nil (k : Nat) : ColorsBelow ([] : CMap) k := by
  intro v a h
  simp [List.lookup] at h

theorem newPartial_snd_true {g : UGraph} {p : CMap}
    (h : (newPartial (some p) g).2 = true) : (newPartial (some p) g).1 = p := by
  by_cases hval : isValidPartial g p = true
  · rw [newPartial_some_valid hval]
  · rw [newPartial_some_invalid (Bool.not_eq_true _ ▸ hval)] at h
    simp at h

theorem Dsatur_valid {g : UGraph} {p : CMap} (hval : isValidPartial g p = true) :
    Dsatur g (some p) =
      .ok (kOf (saturationGreedy g p), saturationGreedy g p) := by
  unfold Dsatur
  rw [newPartial_some_valid hval]

theorem Dsatur_invalid {g : UGraph} {p : CMap}
    (hval : isValidPartial g p = false) :
    Dsatur g (some p) = .error ErrInvalidPartialColoring := by
  unfold Dsatur
  rw [newPartial_some_invalid hval]

theorem SanSegundo_valid {g : UGraph} {p : CMap}
    (hval : isValidPartial g p = true) :
    SanSegundo g (some p) =
      .ok (kOf (saturationGreedy g p), saturationGreedy g p) := by
  unfold SanSegundo
  rw [newPartial_some_valid hval]

theorem SanSegundo_invalid {g : UGraph} {p : CMap}
    (hval : isValidPartial g p = false) :
    SanSegundo g (some p) = .error ErrInvalidPartialColoring := by
  unfold SanSegundo
  rw [newPartial_some_invalid hval]

theorem WelshPowell_valid {g : UGraph} {p : CMap}
    (hval : isValidPartial g p = true) :
    WelshPowell g (some p) =
      .ok (kOf (greedyList g (wpOrder g) p), greedyList g (wpOrder g) p) := by
  unfold WelshPowell
  rw [newPartial_some_valid hval]

theorem WelshPowell_invalid {g : UGraph} {p : CMap}
    (hval : isValidPartial g p = false) :
    WelshPowell g (some p) = .error ErrInvalidPartialColoring := by
  unfold WelshPowell
  rw [newPartial_some_invalid hval]

theorem Randomized_valid {g : UGraph} {p : CMap} {src : Nat → Nat}
    (hval : isValidPartial g p = true) :
    Randomized g (some p) src =
      .ok (kOf (greedyList g (shuffle src g.verts) p),
        greedyList g (shuffle src g.verts) p) := by
  unfold Randomized
  rw [newPartial_some_valid hval]

theorem Randomized_invalid {g : UGraph} {p : CMap} {src : Nat → Nat}
    (hval : isValidPartial g p = false) :
    Randomized g (some p) src = .error ErrInvalidPartialColoring := by
  unfold Randomized
  rw [newPartial_some_invalid hval]

/-! ## The claims -/

/-- **C1** — Properness: for every undirected graph (self-loop-free, as the
graph collaborator guarantees) and every successful call of each coloring
algorithm — including a cancelled-but-complete `DsaturExact` result — the
returned coloring assigns different colors to the two endpoints of every
edge. -/
theorem claim_C1_properness (g : UGraph) (hsl : SelfLoopFree g) :
    (∀ part k c, Dsatur g part = .ok (k, c) → Proper g c) ∧
    (∀ term k c err, DsaturExact term g = (k, c, err) → Proper g c) ∧
    (∀ part src k c, Randomized g part src = .ok (k, c) → Proper g c) ∧
    (∀ k c, RecursiveLargestFirst g = (k, c) → Proper g c) ∧
    (∀ part k c, SanSegundo g part = .ok (k, c) → Proper g c) ∧
    (∀ part k c, WelshPowell g part = .ok (k, c) → Proper g c) := by
  refine ⟨?_, ?_, ?_, ?_, ?_, ?_⟩
  · intro part k c h
    obtain ⟨-, hc, -⟩ := Dsatur_ok h
    rw [hc]
    exact saturationGreedy_proper hsl (newPartial_fst_proper part g)
  · intro term k c err h
    have hb := bestInv_final hsl term
    unfold DsaturExact at h
    injection h with h1 h23
    injection h23 with h2 h3
    rw [← h2]
    exact hb.1
  · intro part src k c h
    obtain ⟨-, hc, -⟩ := Randomized_ok h
    rw [hc]
    exact greedyList_proper hsl _ _ (newPartial_fst_proper part g)
  · intro k c h
    unfold RecursiveLargestFirst at h
    injection h with h1 h2
    rw [← h2]
    exact rlfLoop_proper hsl _ 0 [] (proper_nil g) (colorsBelow_nil 0)
  · intro part k c h
    obtain ⟨-, hc, -⟩ := SanSegundo_ok h
    rw [hc]
    exact saturationGreedy_proper hsl (newPartial_fst_proper part g)
  · intro part k c h
    obtain ⟨-, hc, -⟩ := WelshPowell_ok h
    rw [hc]
    exact greedyList_proper hsl _ _ (newPartial_fst_proper part g)

/-- Witness for C1 on the triangle. -/
theorem claim_C1_properness_witness :
    Proper triangle [(2, 2), (1, 1), (0, 0)] ∧
    Proper triangle [(1, 2), (2, 1), (0, 0)] := by
  have h := claim_C1_properness triangle (by decide)
  refine ⟨h.1 none 3 [(2, 2), (1, 1), (0, 0)] rfl, ?_⟩
  exact h.2.2.1 none identSrc 3 [(1, 2), (2, 1), (0, 0)] rfl

/-- **C2** — Totality: every algorithm's successful (non-cancelled) result
assigns a color to every vertex identifier enumerable from the graph. -/
theorem claim_C2_totality (g : UGraph) (hsl : SelfLoopFree g) :
    (∀ part k c, Dsatur g part = .ok (k, c) → Total g c) ∧
    (∀ term k c, DsaturExact term g = (k, c, none) → Total g c) ∧
    (∀ part src k c, Randomized g part src = .ok (k, c) → Total g c) ∧
    (∀ k c, RecursiveLargestFirst g = (k, c) → Total g c) ∧
    (∀ part k c, SanSegundo g part = .ok (k, c) → Total g c) ∧
    (∀ part k c, WelshPowell g part = .ok (k, c) → Total g c) := by
  refine ⟨?_, ?_, ?_, ?_, ?_, ?_⟩
  · intro part k c h
    obtain ⟨-, hc, -⟩ := Dsatur_ok h
    rw [hc]
    exact saturationGreedy_total g _
  · intro term k c h
    have hb := bestInv_final hsl term
    unfold DsaturExact at h
    injection h with h1 h23
    injection h23 with h2 h3
    rw [← h2]
    exact hb.2.1
  · intro part src k c h
    obtain ⟨-, hc, -⟩ := Randomized_ok h
    rw [hc]
    exact greedyList_total fun v hv => (mem_shuffle src g.verts v).mpr hv
  · intro k c h
    unfold RecursiveLargestFirst at h
    injection h with h1 h2
    rw [← h2]
    exact (uncolored_eq_nil_iff g _).mp (rlfLoop_total hsl _ 0 []
      (by rw [uncolored_nil]))
  · intro part k c h
    obtain ⟨-, hc, -⟩ := SanSegundo_ok h
    rw [hc]
    exact saturationGreedy_total g _
  · intro part k c h
    obtain ⟨-, hc, -⟩ := WelshPowell_ok h
    rw [hc]
    exact greedyList_total fun v hv => (mem_wpOrder g v).mpr hv

/-- Witness for C2 on the triangle. -/
theorem claim_C2_totality_witness :
    Total triangle [(2, 2), (1, 1), (0, 0)] ∧
    Total triangle [(1, 2), (2, 1), (0, 0)] := by
  have h := claim_C2_totality triangle (by decide)
  refine ⟨h.2.1 none 3 [(2, 2), (1, 1), (0, 0)] rfl, ?_⟩
  exact h.2.2.1 none identSrc 3 [(1, 2), (2, 1), (0, 0)] rfl

/-- **C3** — Exactness: `DsaturExact` without cancellation (no Terminator or
one whose deadline never fires) reports no error and returns a proper, total
coloring whose color count is the chromatic number: it is realised by the
returned coloring and no proper total coloring uses fewer colors. -/
theorem claim_C3_exactness (g : UGraph) (hsl : SelfLoopFree g)
    (term : Option Terminator) (hterm : termBudget term = none) (k : Nat)
    (c : CMap) (err : Option String) (h : DsaturExact term g = (k, c, err)) :
    err = none ∧ Proper g c ∧ Total g c ∧ kOf c = k ∧
      ∀ φ, Proper g φ → Total g φ → k ≤ kOf φ := by
  unfold DsaturExact at h
  injection h with h1 h23
  injection h23 with h2 h3
  have hb := bestInv_final hsl term
  have hnc := @bbFinal_not_cancelled g term hterm
  refine ⟨?_, ?_, ?_, ?_, ?_⟩
  · rw [← h3, hnc]
    simp
  · rw [← h2]
    exact hb.1
  · rw [← h2]
    exact hb.2.1
  · rw [← h2, ← h1]
    exact hb.2.2
  · intro φ hφp hφt
    rw [← h1]
    exact bbFinal_bestK_le hφp hφt hterm

/-- Witness for C3 on the triangle: the result is proper and no proper total
coloring (such as the all-distinct one) beats three colors. -/
theorem claim_C3_exactness_witness :
    Proper triangle [(2, 2), (1, 1), (0, 0)] ∧
    3 ≤ kOf [(0, 0), (1, 1), (2, 2)] := by
  have h := claim_C3_exactness triangle (by decide) none rfl 3
    [(2, 2), (1, 1), (0, 0)] none rfl
  exact ⟨h.2.1, h.2.2.2.2 [(0, 0), (1, 1), (2, 2)] (by decide) (by decide)⟩

/-- **C4** — Invalid-partial detection: each partial-accepting algorithm
returns the invalid-partial error exactly when some edge joins two vertices
both assigned equal colors by the caller's partial coloring; an empty or
absent partial coloring is always accepted.  (In the model the validator's
failure aborts the call, so no coloring computation happens on the error.) -/
theorem claim_C4_invalidPartial (g : UGraph) (p : CMap) (src : Nat → Nat) :
    (Dsatur g (some p) = .error ErrInvalidPartialColoring ↔ BadPartial g p) ∧
    (SanSegundo g (some p) = .error ErrInvalidPartialColoring ↔ BadPartial g p) ∧
    (WelshPowell g (some p) = .error ErrInvalidPartialColoring ↔ BadPartial g p) ∧
    (Randomized g (some p) src = .error ErrInvalidPartialColoring ↔
      BadPartial g p) ∧
    ¬ BadPartial g [] ∧
    (∃ r, Dsatur g none = .ok r) ∧ (∃ r, SanSegundo g none = .ok r) ∧
    (∃ r, WelshPowell g none = .ok r) ∧ (∃ r, Randomized g none src = .ok r) := by
  refine ⟨?_, ?_, ?_, ?_, ?_, ?_, ?_, ?_, ?_⟩
  · constructor
    · intro h
      by_cases hval : isValidPartial g p = true
      · rw [Dsatur_valid hval] at h
        exact absurd h (by simp)
      · exact (isValidPartial_eq_false_iff g p).mp (Bool.not_eq_true _ ▸ hval)
    · intro hbad
      exact Dsatur_invalid ((isValidPartial_eq_false_iff g p).mpr hbad)
  · constructor
    · intro h
      by_cases hval : isValidPartial g p = true
      · rw [SanSegundo_valid hval] at h
        exact absurd h (by simp)
      · exact (isValidPartial_eq_false_iff g p).mp (Bool.not_eq_true _ ▸ hval)
    · intro hbad
      exact SanSegundo_invalid ((isValidPartial_eq_false_iff g p).mpr hbad)
  · constructor
    · intro h
      by_cases hval : isValidPartial g p = true
      · rw [WelshPowell_valid hval] at h
        exact absurd h (by simp)
      · exact (isValidPartial_eq_false_iff g p).mp (Bool.not_eq_true _ ▸ hval)
    · intro hbad
      exact WelshPowell_invalid ((isValidPartial_eq_false_iff g p).mpr hbad)
  · constructor
    · intro h
      by_cases hval : isValidPartial g p = true
      · rw [Randomized_valid hval] at h
        exact absurd h (by simp)
      · exact (isValidPartial_eq_false_iff g p).mp (Bool.not_eq_true _ ▸ hval)
    · intro hbad
      exact Randomized_invalid ((isValidPartial_eq_false_iff g p).mpr hbad)
  · rintro ⟨e, he, hsome, -⟩
    simp [List.lookup] at hsome
  · exact ⟨(kOf (saturationGreedy g []), saturationGreedy g []), rfl⟩
  · exact ⟨(kOf (saturationGreedy g []), saturationGreedy g []), rfl⟩
  · exact ⟨(kOf (greedyList g (wpOrder g) []), greedyList g (wpOrder g) []), rfl⟩
  · exact ⟨(kOf (greedyList g (shuffle src g.verts) []),
      greedyList g (shuffle src g.verts) []), rfl⟩

/-- **C5** — Partial fidelity: wherever the caller's valid partial coloring
assigns a vertex a color, each partial-accepting algorithm's output assigns
that vertex that color. -/
theorem claim_C5_partial_fidelity (g : UGraph) (p : CMap) (src : Nat → Nat) :
    (∀ k c, Dsatur g (some p) = .ok (k, c) →
      ∀ v a, p.lookup v = some a → c.lookup v = some a) ∧
    (∀ k c, SanSegundo g (some p) = .ok (k, c) →
      ∀ v a, p.lookup v = some a → c.lookup v = some a) ∧
    (∀ k c, WelshPowell g (some p) = .ok (k, c) →
      ∀ v a, p.lookup v = some a → c.lookup v = some a) ∧
    (∀ k c, Randomized g (some p) src = .ok (k, c) →
      ∀ v a, p.lookup v = some a → c.lookup v = some a) := by
  refine ⟨?_, ?_, ?_, ?_⟩
  · intro k c h v a hva
    obtain ⟨hsnd, hc, -⟩ := Dsatur_ok h
    rw [hc]
    apply saturationGreedy_extends
    rw [newPartial_snd_true hsnd]
    exact hva
  · intro k c h v a hva
    obtain ⟨hsnd, hc, -⟩ := SanSegundo_ok h
    rw [hc]
    apply saturationGreedy_extends
    rw [newPartial_snd_true hsnd]
    exact hva
  · intro k c h v a hva
    obtain ⟨hsnd, hc, -⟩ := WelshPowell_ok h
    rw [hc]
    apply greedyList_extends
    rw [newPartial_snd_true hsnd]
    exact hva
  · intro k c h v a hva
    obtain ⟨hsnd, hc, -⟩ := Randomized_ok h
    rw [hc]
    apply greedyList_extends
    rw [newPartial_snd_true hsnd]
    exact hva

/-- Witness for C5 on the square with the pre-colored vertex `1 ↦ 1`. -/
theorem claim_C5_partial_fidelity_witness :
    List.lookup (1 : Int) [((3 : Int), (1 : Nat)), (2, 0), (0, 0), (1, 1)] =
      some 1 := by
  have h := claim_C5_partial_fidelity squareG [(1, 1)] identSrc
  exact h.1 2 [(3, 1), (2, 0), (0, 0), (1, 1)] rfl 1 1 rfl

/-- **C6** — Cancellation safety: `DsaturExact` under an already-expired
terminator still returns a proper, total coloring with consistent count,
paired with a cancellation error carrying the terminator's reason. -/
theorem claim_C6_cancellation_safety (g : UGraph) (hsl : SelfLoopFree g)
    (t : Terminator) (hexp : t.budget = some 0) (k : Nat) (c : CMap)
    (err : Option String) (h : DsaturExact (some t) g = (k, c, err)) :
    err = some t.reason ∧ Proper g c ∧ Total g c ∧ kOf c = k := by
  unfold DsaturExact at h
  rw [bbFinal_expired hexp] at h
  injection h with h1 h23
  injection h23 with h2 h3
  refine ⟨?_, ?_, ?_, ?_⟩
  · rw [← h3]
    rfl
  · rw [← h2]
    exact saturationGreedy_proper hsl (proper_nil g)
  · rw [← h2]
    exact saturationGreedy_total g []
  · rw [← h2, ← h1]

/-- Witness for C6 on the triangle with an expired deadline. -/
theorem claim_C6_cancellation_safety_witness :
    (some "deadline" : Option String) = some "deadline" ∧
    Proper triangle [(2, 2), (1, 1), (0, 0)] ∧
    Total triangle [(2, 2), (1, 1), (0, 0)] ∧
    kOf [(2, 2), (1, 1), (0, 0)] = 3 :=
  claim_C6_cancellation_safety triangle (by decide) ⟨some 0, "deadline"⟩ rfl 3
    [(2, 2), (1, 1), (0, 0)] (some "deadline") rfl

/-- **C7** — Count consistency: every algorithm's reported color count equals
the number of classes of the color-class index of its returned coloring. -/
theorem claim_C7_count_consistency (g : UGraph) (hsl : SelfLoopFree g) :
    (∀ part k c, Dsatur g part = .ok (k, c) → (Sets c).length = k) ∧
    (∀ term k c err, DsaturExact term g = (k, c, err) → (Sets c).length = k) ∧
    (∀ part src k c, Randomized g part src = .ok (k, c) → (Sets c).length = k) ∧
    (∀ k c, RecursiveLargestFirst g = (k, c) → (Sets c).length = k) ∧
    (∀ part k c, SanSegundo g part = .ok (k, c) → (Sets c).length = k) ∧
    (∀ part k c, WelshPowell g part = .ok (k, c) → (Sets c).length = k) := by
  refine ⟨?_, ?_, ?_, ?_, ?_, ?_⟩
  · intro part k c h
    obtain ⟨-, -, hk⟩ := Dsatur_ok h
    rw [Sets_length, hk]
  · intro term k c err h
    have hb := bestInv_final hsl term
    unfold DsaturExact at h
    injection h with h1 h23
    injection h23 with h2 h3
    rw [Sets_length, ← h2, hb.2.2, h1]
  · intro part src k c h
    obtain ⟨-, -, hk⟩ := Randomized_ok h
    rw [Sets_length, hk]
  · intro k c h
    unfold RecursiveLargestFirst at h
    injection h with h1 h2
    rw [Sets_length, ← h2, h1]
  · intro part k c h
    obtain ⟨-, -, hk⟩ := SanSegundo_ok h
    rw [Sets_length, hk]
  · intro part k c h
    obtain ⟨-, -, hk⟩ := WelshPowell_ok h
    rw [Sets_length, hk]

/-- Witness for C7 on the triangle. -/
theorem claim_C7_count_consistency_witness :
    (Sets [(2, 2), (1, 1), (0, 0)]).length = 3 :=
  (claim_C7_count_consistency triangle (by decide)).1 none 3
    [(2, 2), (1, 1), (0, 0)] rfl

/-- **C8** — Reproducibility: `Randomized` is a pure function of the graph,
the partial coloring and the random source state, so identical inputs give
identical outputs (count and vertex-to-color mapping alike). -/
theorem claim_C8_reproducibility (g : UGraph) (part : Option CMap)
    (s1 s2 : Nat → Nat) (h : s1 = s2) :
    Randomized g part s1 = Randomized g part s2 := by
  rw [h]

/-- Witness for C8 on the triangle. -/
theorem claim_C8_reproducibility_witness :
    Randomized triangle none identSrc = Randomized triangle none identSrc :=
  claim_C8_reproducibility triangle none identSrc identSrc rfl

/-- **C10** — The validator's returned map is itself a proper partial
coloring of the graph, whether or not the caller's input was valid. -/
theorem claim_C10_validator_output_proper (g : UGraph) (part : Option CMap) :
    Proper g (newPartial part g).1 :=
  newPartial_fst_proper part g

/-! ## Bipartite-graph lemmas for the Dsatur two-coloring theorem -/

theorem adj_side_ne {g : UGraph} {side : Int → Bool}
    (hside : ∀ e ∈ g.edges, side e.1 ≠ side e.2) {u v : Int}
    (h : Adj g u v) : side u ≠ side v := by
  unfold Adj at h
  rw [mem_neighbors] at h
  obtain ⟨e, he, hor | hor⟩ := h
  · have := hside e he
    rw [hor] at this
    simp at this
    exact Ne.symm this
  · have := hside e he
    rw [hor] at this
    simpa using this

theorem adj_mem_verts {g : UGraph} (hcl : EdgesClosed g) {u v : Int}
    (h : Adj g u v) : u ∈ g.verts ∧ v ∈ g.verts := by
  unfold Adj at h
  rw [mem_neighbors] at h
  obtain ⟨e, he, hor | hor⟩ := h
  · have := hcl e he
    rw [hor] at this
    exact ⟨this.2, this.1⟩
  · have := hcl e he
    rw [hor] at this
    exact ⟨this.1, this.2⟩

theorem reach_symm {g : UGraph} {u v : Int} (h : Reach g u v) : Reach g v u := by
  induction h with
  | refl => exact Relation.ReflTransGen.refl
  | tail hab hbc ih =>
    exact Relation.ReflTransGen.trans
      (Relation.ReflTransGen.single (adj_symm hbc)) ih

theorem bool_both_ne {s t u : Bool} (h1 : s ≠ u) (h2 : t ≠ u) : s = t := by
  cases s <;> cases t <;> cases u <;> simp_all

theorem bne_left_inj {x y s : Bool} (h : (x != s) = (y != s)) : x = y := by
  cases x <;> cases y <;> cases s <;> simp_all

theorem nat_lt2_beq_eq {a b : Nat} (ha : a < 2) (hb : b < 2)
    (h : (a == 1) = (b == 1)) : a = b := by
  by_cases h1 : a = 1
  · subst h1
    simp at h
    omega
  · have ha0 : a = 0 := by omega
    subst ha0
    simp at h
    omega

theorem bipFlag_same_side {a b : Nat} {s : Bool} (ha : a < 2) (hb : b < 2)
    (h : bipFlag a s = bipFlag b s) : a = b := by
  unfold bipFlag at h
  exact nat_lt2_beq_eq ha hb (bne_left_inj h)

theorem bipFlag_flip {a : Nat} (ha : a < 2) {s t : Bool} (hst : s ≠ t) :
    bipFlag (1 - a) s = bipFlag a t := by
  have h2 : a = 0 ∨ a = 1 := by omega
  rcases h2 with h | h <;> subst h <;> cases s <;> cases t <;> simp_all [bipFlag]

theorem bipFlag_ne_of_sides {a b : Nat} {s t : Bool} (ha : a < 2) (hb : b < 2)
    (h : bipFlag a s = bipFlag b t) (hst : s ≠ t) : a ≠ b := by
  intro hab
  subst hab
  unfold bipFlag at h
  cases hx : (a == 1) <;> rw [hx] at h <;> cases s <;> cases t <;> simp_all

theorem firstFit_nil : firstFit [] = 0 := rfl

theorem firstFit_const {l : List Nat} {a : Nat} (hne : l ≠ [])
    (hall : ∀ b ∈ l, b = a) (ha : a < 2) : firstFit l = 1 - a := by
  have hmem : a ∈ l := by
    rcases List.exists_mem_of_ne_nil l hne with ⟨b, hb⟩
    rw [← hall b hb]
    exact hb
  have hnot : firstFit l ≠ a := fun h => firstFit_not_mem l (h ▸ hmem)
  have hmin : ∀ j, j < firstFit l → j = a := fun j hj => hall j (firstFit_min hj)
  rcases Nat.lt_or_ge (firstFit l) 2 with hlt | hge
  · omega
  · exfalso
    have h0 := hmin 0 (by omega)
    have h1 := hmin 1 (by omega)
    omega

theorem satDeg_zero_iff {g : UGraph} {c : CMap} {v : Int} :
    satDeg g c v = 0 ↔ nbrColors g c v = [] := by
  unfold satDeg
  rw [List.length_eq_zero, List.dedup_eq_nil]

/-- When no uncolored vertex sees a colored neighbor, no uncolored vertex can
reach a colored one at all. -/
theorem no_reach_colored {g : UGraph} {c : CMap} (hcl : EdgesClosed g)
    (hall : ∀ u ∈ uncolored g c, nbrColors g c u = []) :
    ∀ {v w : Int}, Reach g v w → v ∈ g.verts → (c.lookup v).isNone →
      ∀ {cw : Nat}, c.lookup w = some cw → False := by
  intro v w hreach
  induction hreach using Relation.ReflTransGen.head_induction_on with
  | refl =>
    intro hv hvn cw hcw
    rw [hcw] at hvn
    simp at hvn
  | head hstep hrest ih =>
    rename_i a x
    intro ha han cw hcw
    rcases hx : c.lookup x with _ | cx
    · have hxv : x ∈ g.verts := (adj_mem_verts hcl hstep).2
      exact ih hxv (by rw [hx]; rfl) hcw
    · have hmem : a ∈ uncolored g c := mem_uncolored.mpr ⟨ha, han⟩
      have hnil := hall a hmem
      have hcx : cx ∈ nbrColors g c a := by
        unfold nbrColors
        exact List.mem_filterMap.mpr ⟨x, adj_symm hstep, hx⟩
      rw [hnil] at hcx
      simp at hcx

/-- One Dsatur greedy step preserves the bipartite invariant: the selected
vertex either joins an already-colored component (taking the opposite color
of its — necessarily monochromatic — colored neighborhood) or starts a fresh
component with color 0, which the maximum-saturation selection rule
guarantees is disconnected from everything colored so far. -/
theorem bipInv_step {g : UGraph} {side : Int → Bool}
    (hside : ∀ e ∈ g.edges, side e.1 ≠ side e.2) (hcl : EdgesClosed g)
    {c : CMap} (hinv : BipInv g side c) {v0 : Int} {rest : List Int}
    (hu : uncolored g c = v0 :: rest) :
    BipInv g side (assign g c (pickFold (dsaturBetter g c) rest v0)) := by
  obtain ⟨hbound, hflag⟩ := hinv
  have hvmem : pickFold (dsaturBetter g c) rest v0 ∈ uncolored g c := by
    rw [hu]
    exact pickFold_mem _ _ _
  set v := pickFold (dsaturBetter g c) rest v0 with hv
  have hvnone : (c.lookup v).isNone := (mem_uncolored.mp hvmem).2
  have hvvert : v ∈ g.verts := (mem_uncolored.mp hvmem).1
  have hanew : firstFit (nbrColors g c v) < 2 := by
    rcases hnc : nbrColors g c v with _ | ⟨b0, t⟩
    · rw [firstFit_nil]
      omega
    · rcases List.mem_filterMap.mp
        (hnc ▸ List.mem_cons_self b0 t : b0 ∈ nbrColors g c v) with ⟨u0, hu0, hlu0⟩
      have hb0 : b0 < 2 := hbound _ (lookup_mem hlu0)
      have hall : ∀ b ∈ nbrColors g c v, b = b0 := by
        intro b hb
        rcases List.mem_filterMap.mp hb with ⟨u1, hu1, hlu1⟩
        have hreach : Reach g u1 u0 :=
          Relation.ReflTransGen.head (hu1 : Adj g u1 v)
            (Relation.ReflTransGen.single (adj_symm (hu0 : Adj g u0 v)))
        have heqflag := hflag u1 u0 b b0 hlu1 hlu0 hreach
        have hs1 : side u1 = side u0 :=
          bool_both_ne (adj_side_ne hside (hu1 : Adj g u1 v))
            (adj_side_ne hside (hu0 : Adj g u0 v))
        rw [hs1] at heqflag
        exact bipFlag_same_side (hbound _ (lookup_mem hlu1)) hb0 heqflag
      have := firstFit_const (by rw [hnc]; simp) hall hb0
      rw [← hnc]
      omega
  -- the new vertex's flag agrees with every old colored vertex it can reach
  have haux : ∀ w aw, c.lookup w = some aw → Reach g v w →
      bipFlag (firstFit (nbrColors g c v)) (side v) = bipFlag aw (side w) := by
    intro w aw hw hreach
    rcases hnc : nbrColors g c v with _ | ⟨b0, t⟩
    · -- isolated case: the selection rule makes this impossible
      exfalso
      have hsat : satDeg g c v = 0 := satDeg_zero_iff.mpr hnc
      have hall0 : ∀ u ∈ uncolored g c, nbrColors g c u = [] := by
        intro u hu'
        apply satDeg_zero_iff.mp
        have hle : satDeg g c u ≤ satDeg g c v := by
          rw [hv]
          apply pickFold_satDeg_le g c rest v0
          rw [← hu]
          exact hu'
        omega
      exact no_reach_colored hcl hall0 hreach hvvert hvnone hw
    · rcases List.mem_filterMap.mp
        (hnc ▸ List.mem_cons_self b0 t : b0 ∈ nbrColors g c v) with ⟨u0, hu0, hlu0⟩
      have hb0 : b0 < 2 := hbound _ (lookup_mem hlu0)
      have hall : ∀ b ∈ nbrColors g c v, b = b0 := by
        intro b hb
        rcases List.mem_filterMap.mp hb with ⟨u1, hu1, hlu1⟩
        have hreach1 : Reach g u1 u0 :=
          Relation.ReflTransGen.head (hu1 : Adj g u1 v)
            (Relation.ReflTransGen.single (adj_symm (hu0 : Adj g u0 v)))
        have heqflag := hflag u1 u0 b b0 hlu1 hlu0 hreach1
        have hs1 : side u1 = side u0 :=
          bool_both_ne (adj_side_ne hside (hu1 : Adj g u1 v))
            (adj_side_ne hside (hu0 : Adj g u0 v))
        rw [hs1] at heqflag
        exact bipFlag_same_side (hbound _ (lookup_mem hlu1)) hb0 heqflag
      have hff : firstFit (nbrColors g c v) = 1 - b0 := by
        rw [hnc]
        exact firstFit_const (by simp) (by rw [← hnc]; exact hall) hb0
      have hstep1 : bipFlag (firstFit (nbrColors g c v)) (side v) =
          bipFlag b0 (side u0) := by
        rw [hff]
        exact bipFlag_flip hb0 (Ne.symm (adj_side_ne hside (hu0 : Adj g u0 v)))
      have hreach0 : Reach g u0 w :=
        Relation.ReflTransGen.trans
          (Relation.ReflTransGen.single (hu0 : Adj g u0 v)) hreach
      rw [← hnc, hstep1]
      exact hflag u0 w b0 aw hlu0 hw hreach0
  constructor
  · intro p hp
    rcases List.mem_cons.mp hp with hpv | hpc
    · rw [hpv]
      exact hanew
    · exact hbound p hpc
  · intro u w au aw hlu hlw hreach
    by_cases huv : u = v
    · by_cases hwv : w = v
      · subst huv
        subst hwv
        rw [hlw] at hlu
        injection hlu with hlu
        rw [hlu]
      · subst huv
        rw [assign_lookup_self] at hlu
        injection hlu with hlu
        rw [assign_lookup_ne g c hwv] at hlw
        rw [← hlu]
        exact haux w aw hlw hreach
    · by_cases hwv : w = v
      · subst hwv
        rw [assign_lookup_self] at hlw
        injection hlw with hlw
        rw [assign_lookup_ne g c huv] at hlu
        rw [← hlw]
        exact (haux u au hlu (reach_symm hreach)).symm
      · rw [assign_lookup_ne g c huv] at hlu
        rw [assign_lookup_ne g c hwv] at hlw
        exact hflag u w au aw hlu hlw hreach

theorem dsaturLoop_bipInv {g : UGraph} {side : Int → Bool}
    (hside : ∀ e ∈ g.edges, side e.1 ≠ side e.2) (hcl : EdgesClosed g) :
    ∀ (fuel : Nat) (c : CMap), BipInv g side c →
      BipInv g side (dsaturLoop g fuel c) := by
  intro fuel
  induction fuel with
  | zero =>
    intro c hinv
    exact hinv
  | succ n ih =>
    intro c hinv
    unfold dsaturLoop
    rcases hu : uncolored g c with _ | ⟨v0, rest⟩
    · exact hinv
    · exact ih _ (bipInv_step hside hcl hinv hu)

theorem kOf_eq_two {c : CMap} (hbound : ∀ p ∈ c, p.2 < 2)
    {u w : Int} {au aw : Nat} (hu : c.lookup u = some au)
    (hw : c.lookup w = some aw) (hne : au ≠ aw) : kOf c = 2 := by
  unfold kOf
  have h2au : au < 2 := hbound _ (lookup_mem hu)
  have h2aw : aw < 2 := hbound _ (lookup_mem hw)
  have h1 : (c.map Prod.snd).toFinset = {0, 1} := by
    ext q
    rw [List.mem_toFinset]
    constructor
    · intro hq
      rcases List.mem_map.mp hq with ⟨p, hp, hpq⟩
      have := hbound p hp
      simp only [Finset.mem_insert, Finset.mem_singleton]
      omega
    · intro hq
      simp only [Finset.mem_insert, Finset.mem_singleton] at hq
      have hor : q = au ∨ q = aw := by omega
      rcases hor with h | h
      · rw [h]
        exact List.mem_map.mpr ⟨(u, au), lookup_mem hu, rfl⟩
      · rw [h]
        exact List.mem_map.mpr ⟨(w, aw), lookup_mem hw, rfl⟩
  have h2 := List.card_toFinset (c.map Prod.snd)
  rw [h1] at h2
  have h3 : ({0, 1} : Finset Nat).card = 2 := rfl
  omega

theorem two_le_kOf {c : CMap} {u w : Int} {au aw : Nat}
    (hu : c.lookup u = some au) (hw : c.lookup w = some aw) (hne : au ≠ aw) :
    2 ≤ kOf c := by
  unfold kOf
  have hsub : ({au, aw} : Finset Nat) ⊆ (c.map Prod.snd).toFinset := by
    intro q hq
    simp only [Finset.mem_insert, Finset.mem_singleton] at hq
    rcases hq with h | h
    · rw [h]
      exact List.mem_toFinset.mpr (List.mem_map.mpr ⟨(u, au), lookup_mem hu, rfl⟩)
    · rw [h]
      exact List.mem_toFinset.mpr (List.mem_map.mpr ⟨(w, aw), lookup_mem hw, rfl⟩)
  have hcard := Finset.card_le_card hsub
  rw [Finset.card_insert_of_not_mem (by simp [hne]), Finset.card_singleton] at hcard
  have := List.card_toFinset (c.map Prod.snd)
  omega

/-- Bipartiteness rules out self-loops. -/
theorem bipartite_selfLoopFree {g : UGraph} (h : Bipartite g) :
    SelfLoopFree g := by
  obtain ⟨side, hside⟩ := h
  intro e he heq
  exact hside e he (by rw [heq])

/-- **C9 (counterexample)** — the claim fails for Welsh–Powell: the 6-vertex
crown graph is bipartite with at least one edge, yet `WelshPowell` colors it
with 3 colors — its static descending-degree order (all degrees tie, so
ascending identifiers) colors 0 and 1 alike, forcing a third color on
vertex 4. -/
theorem claim_C9_counterexample :
    Bipartite crown6 ∧ crown6.edges ≠ [] ∧
    WelshPowell crown6 none =
      .ok (3, [(5, 2), (4, 2), (3, 1), (2, 1), (1, 0), (0, 0)]) ∧
    (3 : Nat) ≠ 2 := by
  refine ⟨⟨fun v => v % 2 == 1, by decide⟩, by decide, rfl, by decide⟩

/-- **C9 (amended)** — For every bipartite undirected graph (edges within the
vertex enumeration) with at least one edge and no partial coloring, `Dsatur`
returns a color count of exactly 2; `WelshPowell` returns at least 2 but can
return more (see the counterexample). -/
theorem claim_C9_amended (g : UGraph) (hbip : Bipartite g) (hcl : EdgesClosed g)
    (hne : g.edges ≠ []) :
    (∀ k c, Dsatur g none = .ok (k, c) → k = 2) ∧
    (∀ k c, WelshPowell g none = .ok (k, c) → 2 ≤ k) := by
  have hsl : SelfLoopFree g := bipartite_selfLoopFree hbip
  obtain ⟨side, hside⟩ := hbip
  rcases List.exists_mem_of_ne_nil g.edges hne with ⟨e, he⟩
  have he1 : e.1 ∈ g.verts := (hcl e he).1
  have he2 : e.2 ∈ g.verts := (hcl e he).2
  have hadj : Adj g e.1 e.2 := by
    unfold Adj
    rw [mem_neighbors]
    exact ⟨e, he, Or.inr (Prod.ext_iff.mpr ⟨rfl, rfl⟩)⟩
  constructor
  · intro k c h
    obtain ⟨-, hc, hk⟩ := Dsatur_ok h
    have hbip' : BipInv g side (saturationGreedy g []) := by
      apply dsaturLoop_bipInv hside hcl
      constructor
      · intro p hp
        simp at hp
      · intro u w au aw hlu
        simp [List.lookup] at hlu
    obtain ⟨hbound, hflag⟩ := hbip'
    have htot := saturationGreedy_total g []
    rcases Option.isSome_iff_exists.mp (htot e.1 he1) with ⟨a1, ha1⟩
    rcases Option.isSome_iff_exists.mp (htot e.2 he2) with ⟨a2, ha2⟩
    have hflags := hflag e.1 e.2 a1 a2 ha1 ha2
      (Relation.ReflTransGen.single hadj)
    have hane : a1 ≠ a2 :=
      bipFlag_ne_of_sides (hbound _ (lookup_mem ha1)) (hbound _ (lookup_mem ha2))
        hflags (adj_side_ne hside hadj)
    rw [hk, hc]
    exact kOf_eq_two hbound ha1 ha2 hane
  · intro k c h
    obtain ⟨-, hc, hk⟩ := WelshPowell_ok h
    have hprop : Proper g c := by
      rw [hc]
      exact greedyList_proper hsl _ _ (proper_nil g)
    have htot : Total g c := by
      rw [hc]
      exact greedyList_total fun v hv => (mem_wpOrder g v).mpr hv
    rcases Option.isSome_iff_exists.mp (htot e.1 he1) with ⟨a1, ha1⟩
    rcases Option.isSome_iff_exists.mp (htot e.2 he2) with ⟨a2, ha2⟩
    have hane : a1 ≠ a2 := by
      have := hprop e he (by rw [ha1]; rfl) (by rw [ha2]; rfl)
      rw [ha1, ha2] at this
      intro hab
      exact this (by rw [hab])
    rw [hk]
    exact two_le_kOf ha1 ha2 hane

/-- Witness for the amended C9 on the 4-cycle. -/
theorem claim_C9_amended_witness : (2 : Nat) = 2 ∧ (2 : Nat) ≤ 2 := by
  have h := claim_C9_amended squareG ⟨fun v => v % 2 == 1, by decide⟩
    (by decide) (by decide)
  exact ⟨h.1 2 [(3, 1), (2, 0), (1, 1), (0, 0)] rfl,
    h.2 2 [(3, 1), (2, 0), (1, 1), (0, 0)] rfl⟩

end Coloring
